import Mathlib

/-!
Verification of the Moroccan-ID OCR text parser
(`src/project/utils/text_parser.py`, class `MoroccanIDExtractor`).

The Python source is embedded shallowly: strings become `List Char`
(wrapped in `String` at the interface), Python's `re` searches are
hand-compiled per pattern into executable matchers with the engine's
leftmost, greedy-with-backtracking semantics, and the `unicodedata`
library calls are modelled by finite tables restricted to the
Latin/Arabic repertoire this program processes (every character class
and decomposition used below is the standard Unicode data for those
characters; characters outside the tables are treated as stable,
non-combining, which matches Unicode for the repertoire at hand).
-/

set_option maxRecDepth 200000
set_option maxHeartbeats 1000000

namespace LuzivOCR

/-- Apostrophe character, used to build the literals of the source that
contain one (`jusqu'au`, `D'IDENTITE`). -/
def apos : Char := '\''

/-- Whitespace per Python's `re` `\s` and `str.strip` on `str` inputs:
ASCII whitespace, the C1 separators, and the Unicode space characters. -/
def pyIsSpace (c : Char) : Bool :=
  let n := c.toNat
  decide ((9 ≤ n ∧ n ≤ 13) ∨ n = 32 ∨ (28 ≤ n ∧ n ≤ 31) ∨ n = 0x85 ∨ n = 0xA0 ∨
    n = 0x1680 ∨ (0x2000 ≤ n ∧ n ≤ 0x200A) ∨ n = 0x2028 ∨ n = 0x2029 ∨
    n = 0x202F ∨ n = 0x205F ∨ n = 0x3000)

/-- Combining marks (`unicodedata.combining(c) != 0`), modelled for the
Latin and Arabic repertoire: the combining diacritical marks block and
the Arabic combining marks. -/
def isComb (c : Char) : Bool :=
  let n := c.toNat
  decide ((0x300 ≤ n ∧ n ≤ 0x36F) ∨ (0x610 ≤ n ∧ n ≤ 0x61A) ∨
    (0x64B ≤ n ∧ n ≤ 0x65F) ∨ n = 0x670 ∨ (0x6D6 ≤ n ∧ n ≤ 0x6DC) ∨
    (0x6DF ≤ n ∧ n ≤ 0x6E4) ∨ n = 0x6E7 ∨ n = 0x6E8 ∨ (0x6EA ≤ n ∧ n ≤ 0x6ED))

/-- First-match association-list lookup over a character-keyed table. -/
def assoc {α : Type} : List (Char × α) → Char → Option α
  | [], _ => none
  | (k, v) :: t, c => if c = k then some v else assoc t c

/-- NFKD decompositions (`unicodedata.normalize('NFKD', text)`) for the
Latin-1 accented letters and the Arabic hamza-carrying forms the program
can meet; characters not listed decompose to themselves. -/
def nfkdTable : List (Char × List Char) :=
  [('À', ['A', '̀']), ('Á', ['A', '́']), ('Â', ['A', '̂']),
   ('Ã', ['A', '̃']), ('Ä', ['A', '̈']), ('Ç', ['C', '̧']),
   ('È', ['E', '̀']), ('É', ['E', '́']), ('Ê', ['E', '̂']),
   ('Ë', ['E', '̈']), ('Ì', ['I', '̀']), ('Í', ['I', '́']),
   ('Î', ['I', '̂']), ('Ï', ['I', '̈']), ('Ñ', ['N', '̃']),
   ('Ò', ['O', '̀']), ('Ó', ['O', '́']), ('Ô', ['O', '̂']),
   ('Ö', ['O', '̈']), ('Ù', ['U', '̀']), ('Ú', ['U', '́']),
   ('Û', ['U', '̂']), ('Ü', ['U', '̈']),
   ('à', ['a', '̀']), ('á', ['a', '́']), ('â', ['a', '̂']),
   ('ã', ['a', '̃']), ('ä', ['a', '̈']), ('ç', ['c', '̧']),
   ('è', ['e', '̀']), ('é', ['e', '́']), ('ê', ['e', '̂']),
   ('ë', ['e', '̈']), ('ì', ['i', '̀']), ('í', ['i', '́']),
   ('î', ['i', '̂']), ('ï', ['i', '̈']), ('ñ', ['n', '̃']),
   ('ò', ['o', '̀']), ('ó', ['o', '́']), ('ô', ['o', '̂']),
   ('ö', ['o', '̈']), ('ù', ['u', '̀']), ('ú', ['u', '́']),
   ('û', ['u', '̂']), ('ü', ['u', '̈']),
   ('أ', ['ا', 'ٔ']), ('إ', ['ا', 'ٕ']), ('آ', ['ا', 'ٓ']),
   ('ؤ', ['و', 'ٔ']), ('ئ', ['ي', 'ٔ']),
   (' ', [' '])]

/-- Per-character NFKD decomposition. -/
def nfkdChar (c : Char) : List Char :=
  match assoc nfkdTable c with
  | some d => d
  | none => [c]

/-- Removal of combining marks:
`''.join(c for c in text if not unicodedata.combining(c))`. -/
def stripCombining (l : List Char) : List Char :=
  l.filter (fun c => !isComb c)

/-- Whitespace collapsing, `re.sub(r'\s+', ' ', text)`: each maximal run
of whitespace becomes a single ASCII space.  The boolean records whether
the previous character belonged to a whitespace run. -/
def collapseWsAux : Bool → List Char → List Char
  | _, [] => []
  | prevSp, c :: r =>
    if pyIsSpace c then
      if prevSp then collapseWsAux true r else ' ' :: collapseWsAux true r
    else c :: collapseWsAux false r

/-- Whitespace collapsing starting outside any run. -/
def collapseWs (l : List Char) : List Char := collapseWsAux false l

/-- Python `str.strip()`: remove leading and trailing whitespace. -/
def stripEnds (l : List Char) : List Char :=
  ((l.dropWhile pyIsSpace).reverse.dropWhile pyIsSpace).reverse

/-- The `arabic_chars` substitution table of `normalize_text`, in source
order: hamza-carrying alefs to plain alef, teh marbuta to heh, alef
maksura to yeh, Arabic-indic digits to Western digits. -/
def arabic_chars : List (Char × Char) :=
  [('أ', 'ا'), ('إ', 'ا'), ('آ', 'ا'),
   ('ة', 'ه'),
   ('ى', 'ي'),
   ('٠', '0'), ('١', '1'), ('٢', '2'), ('٣', '3'), ('٤', '4'),
   ('٥', '5'), ('٦', '6'), ('٧', '7'), ('٨', '8'), ('٩', '9')]

/-- The replacement loop `for ar_char, replacement in arabic_chars.items():
text = text.replace(ar_char, replacement)`; a single-character `replace`
is a pointwise map. -/
def applyArabicRepl (l : List Char) : List Char :=
  arabic_chars.foldl (fun acc p => acc.map (fun c => if c = p.1 then p.2 else c)) l

/-- One-pass functional view of the substitution table (proved equal to
the sequential replacement loop below). -/
def arabicLookup (c : Char) : Char :=
  match assoc arabic_chars c with
  | some v => v
  | none => c

/-- `MoroccanIDExtractor.normalize_text` on character lists: NFKD
decomposition, combining-mark removal, whitespace collapsing and
trimming, then the Arabic substitution table. -/
def normalizeL (l : List Char) : List Char :=
  applyArabicRepl (stripEnds (collapseWs (stripCombining (l.flatMap nfkdChar))))

/-- The stage of `normalize_text` just before the Arabic substitution
table is applied. -/
def midNormL (l : List Char) : List Char :=
  stripEnds (collapseWs (stripCombining (l.flatMap nfkdChar)))

/-- `MoroccanIDExtractor.normalize_text`. -/
def normalize_text (s : String) : String := ⟨normalizeL s.data⟩

/-! ## Date parsing (`MoroccanIDExtractor.parse_date`) -/

/-- ASCII decimal digit (the `\d` of CPython's `_strptime` regexes; the
model restricts `\d` to ASCII digits, which is exact for every call site
because `extract` normalizes Arabic-indic digits away first). -/
def isDig (c : Char) : Bool := decide ('0'.toNat ≤ c.toNat ∧ c.toNat ≤ '9'.toNat)

/-- Numeric value of an ASCII digit. -/
def digVal (c : Char) : Nat := c.toNat - '0'.toNat

/-- Candidates for `%d` (CPython regex `3[01]|[12]\d|0[1-9]|[1-9]`), in
the regex engine's preference order, each with the remaining input. -/
def dayCands (l : List Char) : List (Nat × List Char) :=
  (match l with
   | c0 :: c1 :: r =>
     if c0 = '3' ∧ (c1 = '0' ∨ c1 = '1') then [(30 + digVal c1, r)] else []
   | _ => []) ++
  (match l with
   | c0 :: c1 :: r =>
     if (c0 = '1' ∨ c0 = '2') ∧ isDig c1 then [(10 * digVal c0 + digVal c1, r)] else []
   | _ => []) ++
  (match l with
   | c0 :: c1 :: r =>
     if c0 = '0' ∧ isDig c1 ∧ c1 ≠ '0' then [(digVal c1, r)] else []
   | _ => []) ++
  (match l with
   | c0 :: r => if isDig c0 ∧ c0 ≠ '0' then [(digVal c0, r)] else []
   | _ => [])

/-- Candidates for `%m` (CPython regex `1[0-2]|0[1-9]|[1-9]`), in
preference order. -/
def monthCands (l : List Char) : List (Nat × List Char) :=
  (match l with
   | c0 :: c1 :: r =>
     if c0 = '1' ∧ (c1 = '0' ∨ c1 = '1' ∨ c1 = '2') then [(10 + digVal c1, r)] else []
   | _ => []) ++
  (match l with
   | c0 :: c1 :: r =>
     if c0 = '0' ∧ isDig c1 ∧ c1 ≠ '0' then [(digVal c1, r)] else []
   | _ => []) ++
  (match l with
   | c0 :: r => if isDig c0 ∧ c0 ≠ '0' then [(digVal c0, r)] else []
   | _ => [])

/-- Candidate for `%Y` (CPython regex `\d\d\d\d`): exactly four digits. -/
def yearCand (l : List Char) : List (Nat × List Char) :=
  match l with
  | a :: b :: c :: d :: r =>
    if isDig a ∧ isDig b ∧ isDig c ∧ isDig d then
      [(1000 * digVal a + 100 * digVal b + 10 * digVal c + digVal d, r)]
    else []
  | _ => []

/-- First success of `f` over a candidate list (regex backtracking in
preference order). -/
def firstSome {α β : Type} (f : α → Option β) : List α → Option β
  | [] => none
  | a :: t =>
    match f a with
    | some b => some b
    | none => firstSome f t

/-- Literal `/` separator of the format strings. -/
def expectSlash {α : Type} (k : List Char → Option α) : List Char → Option α
  | '/' :: r => k r
  | _ => none

/-- The three format strings tried by `parse_date`. -/
inductive PyFmt | dmy | ymd | mdy
deriving DecidableEq

/-- Syntactic `datetime.strptime(s, fmt)` match: the format regex must
match from the start and consume the whole string (CPython raises on
unconverted data); the result is `(year, month, day)`.  Backtracking
follows the engine's preference order via the candidate lists. -/
def strptimeF : PyFmt → List Char → Option (Nat × Nat × Nat)
  | PyFmt.dmy, l =>
    firstSome (fun (d, r1) =>
      expectSlash (fun r2 =>
        firstSome (fun (m, r3) =>
          expectSlash (fun r4 =>
            firstSome (fun (y, r5) =>
              if r5 = [] then some (y, m, d) else none) (yearCand r4)) r3)
          (monthCands r2)) r1) (dayCands l)
  | PyFmt.ymd, l =>
    firstSome (fun (y, r1) =>
      expectSlash (fun r2 =>
        firstSome (fun (m, r3) =>
          expectSlash (fun r4 =>
            firstSome (fun (d, r5) =>
              if r5 = [] then some (y, m, d) else none) (dayCands r4)) r3)
          (monthCands r2)) r1) (yearCand l)
  | PyFmt.mdy, l =>
    firstSome (fun (m, r1) =>
      expectSlash (fun r2 =>
        firstSome (fun (d, r3) =>
          expectSlash (fun r4 =>
            firstSome (fun (y, r5) =>
              if r5 = [] then some (y, m, d) else none) (yearCand r4)) r3)
          (dayCands r2)) r1) (monthCands l)

/-- Gregorian leap year, as in Python's `datetime`. -/
def isLeap (y : Nat) : Bool := decide (y % 4 = 0 ∧ (y % 100 ≠ 0 ∨ y % 400 = 0))

/-- Days in a month, as in Python's `datetime`. -/
def daysInMonth (y m : Nat) : Nat :=
  if m = 2 then (if isLeap y then 29 else 28)
  else if m = 4 ∨ m = 6 ∨ m = 9 ∨ m = 11 then 30
  else 31

/-- Calendar validity enforced by the `datetime` constructor (the year
bound is `datetime.MINYEAR = 1`; four strptime digits keep it under
`MAXYEAR`). -/
def validDate (y m d : Nat) : Bool :=
  decide (1 ≤ y ∧ 1 ≤ m ∧ m ≤ 12 ∧ 1 ≤ d) && decide (d ≤ daysInMonth y m)

/-- One `try: datetime.strptime(...)` step: syntactic match, then the
`datetime` constructor's validity check; any failure raises `ValueError`,
modelled as `none`. -/
def strptimeValid (f : PyFmt) (l : List Char) : Option (Nat × Nat × Nat) :=
  match strptimeF f l with
  | some (y, m, d) => if validDate y m d then some (y, m, d) else none
  | none => none

/-- The `for fmt in [...]` loop of `parse_date`: first format that both
matches and yields a valid date wins. -/
def tryFormats : List PyFmt → List Char → Option (Nat × Nat × Nat)
  | [], _ => none
  | f :: fs, l =>
    match strptimeValid f l with
    | some r => some r
    | none => tryFormats fs l

/-- Zero-padded two-digit field of `strftime` (`%m`, `%d`). -/
def pad2 (n : Nat) : String := if n < 10 then "0" ++ toString n else toString n

/-- `datetime.strftime('%Y-%m-%d')` (glibc `%Y` prints the year as a
plain decimal number). -/
def formatDate (y m d : Nat) : String := toString y ++ "-" ++ pad2 m ++ "-" ++ pad2 d

/-- Separator standardization of `parse_date`:
`date_str.replace('.', '/').replace('-', '/')`. -/
def stdSeps (l : List Char) : List Char :=
  l.map (fun c => if c = '.' then '/' else if c = '-' then '/' else c)

/-- `MoroccanIDExtractor.parse_date`: empty input is falsy and returns
`None`; otherwise separators are standardized and the three formats
`%d/%m/%Y`, `%Y/%m/%d`, `%m/%d/%Y` are tried in that order. -/
def parse_date (s : String) : Option String :=
  if s.data = [] then none
  else
    match tryFormats [PyFmt.dmy, PyFmt.ymd, PyFmt.mdy] (stdSeps s.data) with
    | some (y, m, d) => some (formatDate y m d)
    | none => none


/-! ## Boilerplate removal (`MoroccanIDExtractor.clean_irrelevant_lines`) -/

/-- Lowercase table for `re.IGNORECASE` comparison: the ASCII and
Latin-1 uppercase letters this program meets (Arabic has no case). -/
def lowerTable : List (Char × Char) :=
  [('A', 'a'), ('B', 'b'), ('C', 'c'), ('D', 'd'), ('E', 'e'), ('F', 'f'),
   ('G', 'g'), ('H', 'h'), ('I', 'i'), ('J', 'j'), ('K', 'k'), ('L', 'l'),
   ('M', 'm'), ('N', 'n'), ('O', 'o'), ('P', 'p'), ('Q', 'q'), ('R', 'r'),
   ('S', 's'), ('T', 't'), ('U', 'u'), ('V', 'v'), ('W', 'w'), ('X', 'x'),
   ('Y', 'y'), ('Z', 'z'),
   ('À', 'à'), ('Á', 'á'), ('Â', 'â'), ('Ã', 'ã'), ('Ä', 'ä'), ('Å', 'å'),
   ('Æ', 'æ'), ('Ç', 'ç'), ('È', 'è'), ('É', 'é'), ('Ê', 'ê'), ('Ë', 'ë'),
   ('Ì', 'ì'), ('Í', 'í'), ('Î', 'î'), ('Ï', 'ï'), ('Ð', 'ð'), ('Ñ', 'ñ'),
   ('Ò', 'ò'), ('Ó', 'ó'), ('Ô', 'ô'), ('Õ', 'õ'), ('Ö', 'ö'), ('Ø', 'ø'),
   ('Ù', 'ù'), ('Ú', 'ú'), ('Û', 'û'), ('Ü', 'ü'), ('Ý', 'ý'), ('Þ', 'þ')]

/-- Python's lowercasing as used by `re.IGNORECASE` comparison. -/
def toLowerPy (c : Char) : Char :=
  match assoc lowerTable c with
  | some v => v
  | none => c

/-- Case-insensitive literal match at the head of the input, returning
the remainder on success. -/
def litI : List Char → List Char → Option (List Char)
  | [], l => some l
  | _ :: _, [] => none
  | p :: ps, c :: r => if toLowerPy c = toLowerPy p then litI ps r else none

/-- Candidate remainders for a greedy `\s*`, most-consumed first (the
regex engine's backtracking order). -/
def spaceCands : List Char → List (List Char)
  | [] => [[]]
  | c :: r => if pyIsSpace c then spaceCands r ++ [c :: r] else [c :: r]

/-- Candidate remainders for a greedy `[:]*`, most-consumed first. -/
def colonCands : List Char → List (List Char)
  | [] => [[]]
  | c :: r => if c = ':' then colonCands r ++ [c :: r] else [c :: r]

/-- The removal literals of the first pattern,
`(ROYAUME DU MAROC|CARTE NATIONALE D'IDENTITE)`. -/
def frPhrase1 : List Char := "ROYAUME DU MAROC".data

/-- Second alternative of the first removal pattern. -/
def frPhrase2 : List Char := "CARTE NATIONALE D".data ++ [apos] ++ "IDENTITE".data

/-- First alternative of the second removal pattern,
`(المملكة المغربية|البطاقة الوطنية للتعريف)`. -/
def arPhrase1 : List Char := "المملكة المغربية".data

/-- Second alternative of the second removal pattern. -/
def arPhrase2 : List Char := "البطاقة الوطنية للتعريف".data

/-- `re.sub` of an alternation of literals with empty replacement:
scan left to right, at each position try the alternatives in order,
skip past a match and continue after it.  Fuel equal to the input
length suffices because every step consumes at least one character. -/
def subAltsF (alts : List (List Char)) : Nat → List Char → List Char
  | 0, l => l
  | _ + 1, [] => []
  | fuel + 1, c :: r =>
    match firstSome (fun a => litI a (c :: r)) alts with
    | some rest => subAltsF alts fuel rest
    | none => c :: subAltsF alts fuel r

/-- `re.sub(alternation, '', text, flags=re.IGNORECASE)`. -/
def subAlts (alts : List (List Char)) (l : List Char) : List Char :=
  subAltsF alts l.length l

/-- The corrupted-fragment literal `غَاية` of the third removal pattern
(note the combining fatha after the ghain, as written in the source). -/
def fragGhaya : List Char := ['غ', 'َ', 'ا', 'ي', 'ة']

/-- Tail `\d{2}\.\d{4}` of the third removal pattern. -/
def fragDigits : List Char → Option (List Char)
  | d1 :: d2 :: '.' :: d3 :: d4 :: d5 :: d6 :: r =>
    if isDig d1 ∧ isDig d2 ∧ isDig d3 ∧ isDig d4 ∧ isDig d5 ∧ isDig d6 then some r else none
  | _ => none

/-- Match of the third removal pattern `الحة\s*إلى\s*غَاية\s*\d{2}\.\d{4}`
at the current position, returning the remainder after the match. -/
def fragMatchAt (l : List Char) : Option (List Char) :=
  (litI "الحة".data l).bind fun r1 =>
    firstSome (fun a =>
      (litI "إلى".data a).bind fun r2 =>
        firstSome (fun b =>
          (litI fragGhaya b).bind fun r3 =>
            firstSome (fun cnd => fragDigits cnd) (spaceCands r3)) (spaceCands r2))
      (spaceCands r1)

/-- `re.sub` of the third removal pattern with empty replacement. -/
def fragSubF : Nat → List Char → List Char
  | 0, l => l
  | _ + 1, [] => []
  | fuel + 1, c :: r =>
    match fragMatchAt (c :: r) with
    | some rest => fragSubF fuel rest
    | none => c :: fragSubF fuel r

/-- Fragment removal pass over the whole text. -/
def fragSub (l : List Char) : List Char := fragSubF l.length l

/-- `MoroccanIDExtractor.clean_irrelevant_lines`: the three removal
patterns applied in source order, then `str.strip()`. -/
def clean_irrelevant_lines (s : String) : String :=
  ⟨stripEnds (fragSub (subAlts [arPhrase1, arPhrase2] (subAlts [frPhrase1, frPhrase2] s.data)))⟩

/-! ## Field patterns (`self.patterns`) and `re.search` -/

/-- ASCII letter (`[A-Z]` under `re.IGNORECASE`). -/
def isAsciiAlpha (c : Char) : Bool :=
  decide ((65 ≤ c.toNat ∧ c.toNat ≤ 90) ∨ (97 ≤ c.toNat ∧ c.toNat ≤ 122))

/-- Word character for `\b` (Python `\w`), modelled for the ASCII,
Latin-1 and Arabic repertoire. -/
def isWordChar (c : Char) : Bool :=
  let n := c.toNat
  isAsciiAlpha c || isDig c || decide (n = 95) ||
  decide ((0xC0 ≤ n ∧ n ≤ 0xFF ∧ n ≠ 0xD7 ∧ n ≠ 0xF7)) ||
  (decide (0x600 ≤ n ∧ n ≤ 0x6FF) && !isComb c)

/-- Word-ness of an optional character; the ends of the text count as
non-word. -/
def isWordOpt : Option Char → Bool
  | none => false
  | some c => isWordChar c

/-- Word boundary `\b` between the previous character and the head of
the remaining input. -/
def bAt (prev : Option Char) (l : List Char) : Bool :=
  isWordOpt prev ^^ isWordOpt l.head?

/-- Character class `[A-Z\s\-]` under `re.IGNORECASE`. -/
def nameClass (c : Char) : Bool := isAsciiAlpha c || pyIsSpace c || c = '-'

/-- Character class `[؀-ۿ\s]`. -/
def arNameClass (c : Char) : Bool :=
  decide (0x600 ≤ c.toNat ∧ c.toNat ≤ 0x6FF) || pyIsSpace c

/-- Tail `\s*[:]*\s*(class+)`: greedy stars with engine-order
backtracking, then the greedy nonempty capture. -/
def classTail (cls : Char → Bool) (l : List Char) : Option (List Char) :=
  firstSome (fun a =>
    firstSome (fun b =>
      firstSome (fun cnd =>
        match cnd.takeWhile cls with
        | [] => none
        | g => some g) (spaceCands b)) (colonCands a)) (spaceCands l)

/-- Tail `\s*(class+)` without the colon star. -/
def classTailNC (cls : Char → Bool) (l : List Char) : Option (List Char) :=
  firstSome (fun a =>
    match a.takeWhile cls with
    | [] => none
    | g => some g) (spaceCands l)

/-- Separator class `[.\x2f-]` of the date capture groups. -/
def isSep (c : Char) : Bool := c = '.' ∨ c = '/' ∨ c = '-'

/-- Capture group `(\d{2}[.\x2f-]\d{2}[.\x2f-]\d{4})`: the captured ten
characters and the remainder. -/
def dateGroupAt : List Char → Option (List Char × List Char)
  | d1 :: d2 :: s1 :: d3 :: d4 :: s2 :: y1 :: y2 :: y3 :: y4 :: r =>
    if isDig d1 ∧ isDig d2 ∧ isSep s1 ∧ isDig d3 ∧ isDig d4 ∧ isSep s2 ∧
       isDig y1 ∧ isDig y2 ∧ isDig y3 ∧ isDig y4 then
      some ([d1, d2, s1, d3, d4, s2, y1, y2, y3, y4], r)
    else none
  | _ => none

/-- Tail `\s*(\d{2}[.\x2f-]\d{2}[.\x2f-]\d{4})`. -/
def dateTail (l : List Char) : Option (List Char) :=
  firstSome (fun a => (dateGroupAt a).map Prod.fst) (spaceCands l)

/-- Tail `\s*[:]*\s*(\d{2}[.\x2f-]\d{2}[.\x2f-]\d{4})`. -/
def colonDateTail (l : List Char) : Option (List Char) :=
  firstSome (fun a =>
    firstSome (fun b =>
      firstSome (fun cnd => (dateGroupAt cnd).map Prod.fst) (spaceCands b))
      (colonCands a)) (spaceCands l)

/-- Six digits closing the CIN pattern, with the trailing `\b` (the
last digit is a word character, so the boundary needs a non-word or
end-of-input successor); returns the whole match (group 0). -/
def digits6After (pre : List Char) : List Char → Option (List Char)
  | d1 :: d2 :: d3 :: d4 :: d5 :: d6 :: r =>
    if isDig d1 ∧ isDig d2 ∧ isDig d3 ∧ isDig d4 ∧ isDig d5 ∧ isDig d6 ∧
       !isWordOpt r.head? then
      some (pre ++ [d1, d2, d3, d4, d5, d6])
    else none
  | _ => none

/-- Match of `\b[A-Z]{1,2}\d{6}\b` (searched with `re.IGNORECASE`) at
the current position: greedy `{1,2}` tries two letters first. -/
def matchCinAt (prev : Option Char) (l : List Char) : Option (List Char) :=
  if bAt prev l then
    match l with
    | a :: r =>
      if isAsciiAlpha a then
        match r with
        | b :: r2 =>
          if isAsciiAlpha b then
            match digits6After [a, b] r2 with
            | some g => some g
            | none => digits6After [a] r
          else digits6After [a] r
        | [] => none
      else none
    | [] => none
  else none

/-- Match of `NOM\s*ET\s*PRENOM\s*[:]*\s*([A-Z\s\-]+)` at the current
position (IGNORECASE), returning the capture group. -/
def matchNameFrAt (_prev : Option Char) (l : List Char) : Option (List Char) :=
  (litI "NOM".data l).bind fun r1 =>
    firstSome (fun a =>
      (litI "ET".data a).bind fun r2 =>
        firstSome (fun b =>
          (litI "PRENOM".data b).bind fun r3 => classTail nameClass r3)
          (spaceCands r2)) (spaceCands r1)

/-- Match of `الاسم\s*الكامل\s*[:]*\s*([؀-ۿ\s]+)`. -/
def matchNameArAt (_prev : Option Char) (l : List Char) : Option (List Char) :=
  (litI "الاسم".data l).bind fun r1 =>
    firstSome (fun a =>
      (litI "الكامل".data a).bind fun r2 => classTail arNameClass r2)
      (spaceCands r1)

/-- Match of `N[eé]\s*le\s*(\d{2}[.\x2f-]\d{2}[.\x2f-]\d{4})` (IGNORECASE). -/
def matchBDFrAt (_prev : Option Char) (l : List Char) : Option (List Char) :=
  match l with
  | c :: e :: r =>
    if toLowerPy c = 'n' ∧ (toLowerPy e = 'e' ∨ toLowerPy e = 'é') then
      firstSome (fun a => (litI "le".data a).bind fun r2 => dateTail r2) (spaceCands r)
    else none
  | _ => none

/-- Match of `تاريخ\s*الازدياد\s*[:]*\s*(\d{2}[.\x2f-]\d{2}[.\x2f-]\d{4})`. -/
def matchBDArAt (_prev : Option Char) (l : List Char) : Option (List Char) :=
  (litI "تاريخ".data l).bind fun r1 =>
    firstSome (fun a =>
      (litI "الازدياد".data a).bind fun r2 => colonDateTail r2)
      (spaceCands r1)

/-- Match of `\b(?:à|a)\s*([A-Z\s\-]+)` (IGNORECASE). -/
def matchBPFrAt (prev : Option Char) (l : List Char) : Option (List Char) :=
  match l with
  | c :: r =>
    if bAt prev l ∧ (toLowerPy c = 'à' ∨ toLowerPy c = 'a') then
      classTailNC nameClass r
    else none
  | [] => none

/-- Match of `مكان\s*الازدياد\s*[:]*\s*([؀-ۿ\s]+)`. -/
def matchBPArAt (_prev : Option Char) (l : List Char) : Option (List Char) :=
  (litI "مكان".data l).bind fun r1 =>
    firstSome (fun a =>
      (litI "الازدياد".data a).bind fun r2 => classTail arNameClass r2)
      (spaceCands r1)

/-- The literal `jusqu'au` of the French expiry pattern. -/
def jusquauL : List Char := "jusqu".data ++ [apos] ++ "au".data

/-- Match of `Valable\s*jusqu\'au\s*(\d{2}[.\x2f-]\d{2}[.\x2f-]\d{4})`
(IGNORECASE). -/
def matchExFrAt (_prev : Option Char) (l : List Char) : Option (List Char) :=
  (litI "Valable".data l).bind fun r1 =>
    firstSome (fun a =>
      (litI jusquauL a).bind fun r2 => dateTail r2) (spaceCands r1)

/-- Match of `صالحة\s*إلى\s*غاية\s*(\d{2}[.\x2f-]\d{2}[.\x2f-]\d{4})`. -/
def matchExArAt (_prev : Option Char) (l : List Char) : Option (List Char) :=
  (litI "صالحة".data l).bind fun r1 =>
    firstSome (fun a =>
      (litI "إلى".data a).bind fun r2 =>
        firstSome (fun b =>
          (litI "غاية".data b).bind fun r3 => dateTail r3) (spaceCands r2))
      (spaceCands r1)

/-- `re.search`: try the pattern at every position, leftmost match
wins; the previous character is threaded for `\b`. -/
def searchAuxG (mA : Option Char → List Char → Option (List Char)) :
    Option Char → List Char → Option (List Char)
  | prev, [] => mA prev []
  | prev, c :: r =>
    match mA prev (c :: r) with
    | some g => some g
    | none => searchAuxG mA (some c) r

/-- `re.search` from the start of the text. -/
def searchG (mA : Option Char → List Char → Option (List Char)) (l : List Char) :
    Option (List Char) :=
  searchAuxG mA none l

/-- Search for each of the nine patterns. -/
def searchCin (l : List Char) : Option (List Char) := searchG matchCinAt l

/-- Search of the French name pattern. -/
def searchNameFr (l : List Char) : Option (List Char) := searchG matchNameFrAt l

/-- Search of the Arabic name pattern. -/
def searchNameAr (l : List Char) : Option (List Char) := searchG matchNameArAt l

/-- Search of the French birth-date pattern. -/
def searchBDFr (l : List Char) : Option (List Char) := searchG matchBDFrAt l

/-- Search of the Arabic birth-date pattern. -/
def searchBDAr (l : List Char) : Option (List Char) := searchG matchBDArAt l

/-- Search of the French birth-place pattern. -/
def searchBPFr (l : List Char) : Option (List Char) := searchG matchBPFrAt l

/-- Search of the Arabic birth-place pattern. -/
def searchBPAr (l : List Char) : Option (List Char) := searchG matchBPArAt l

/-- Search of the French expiry pattern. -/
def searchExFr (l : List Char) : Option (List Char) := searchG matchExFrAt l

/-- Search of the Arabic expiry pattern. -/
def searchExAr (l : List Char) : Option (List Char) := searchG matchExArAt l

/-! ## The extraction dictionary and `MoroccanIDExtractor.extract` -/

/-- The `extracted` dictionary: an insertion-ordered association list,
as Python dictionaries are. -/
abbrev FieldMap := List (String × Option String)

/-- Python dictionary read `extracted[k]`: `some v` when the key is
present (with `v = none` the explicit absent marker), `none` when the
key is missing. -/
def dictGet : FieldMap → String → Option (Option String)
  | [], _ => none
  | (k, v) :: t, q => if k = q then some v else dictGet t q

/-- Python dictionary write `extracted[k] = v`: update in place if the
key exists, else append. -/
def dictSet : FieldMap → String → Option String → FieldMap
  | [], k, v => [(k, v)]
  | (k', v') :: t, k, v => if k' = k then (k', v) :: t else (k', v') :: dictSet t k v

/-- Cased character for `str.title()` (ASCII model, exact for the field
names used). -/
def isCased (c : Char) : Bool := isAsciiAlpha c

/-- Python `str.title()`: uppercase a cased character after a non-cased
one, lowercase the rest. -/
def titleAux : Bool → List Char → List Char
  | _, [] => []
  | prevC, c :: r =>
    (if isCased c then (if prevC then c.toLower else c.toUpper) else c) ::
      titleAux (isCased c) r

/-- Python `str.title()`. -/
def pyTitle (s : String) : String := ⟨titleAux false s.data⟩

/-- The key actually written by `extract`:
`key.replace('_', ' ').title()`. -/
def storeKey (f : String) : String :=
  pyTitle ⟨f.data.map (fun c => if c = '_' then ' ' else c)⟩

/-- The initial `extracted` dictionary of `extract`, with the five
declared field keys all explicitly absent. -/
def initExtracted : FieldMap :=
  [("CIN Number", none), ("Full Name", none), ("Date of Birth", none),
   ("Place of Birth", none), ("Expiry Date", none)]

/-- Loop iteration for `cin_number` (a bare pattern: `group(0).strip()`
is stored). -/
def cinStep (t : List Char) (m : FieldMap) : FieldMap :=
  match searchCin t with
  | some g => dictSet m (storeKey "cin_number") (some ⟨stripEnds g⟩)
  | none => m

/-- Loop iteration for `name` (languages tried in insertion order `fr`,
`ar`; first match wins; `group(1).strip()` is stored). -/
def nameStep (t : List Char) (m : FieldMap) : FieldMap :=
  match searchNameFr t with
  | some g => dictSet m (storeKey "name") (some ⟨stripEnds g⟩)
  | none =>
    match searchNameAr t with
    | some g => dictSet m (storeKey "name") (some ⟨stripEnds g⟩)
    | none => m

/-- Loop iteration for `birth_date` (a date field: `parse_date` of the
capture is stored, possibly the absent marker). -/
def birthDateStep (t : List Char) (m : FieldMap) : FieldMap :=
  match searchBDFr t with
  | some g => dictSet m (storeKey "birth_date") (parse_date ⟨g⟩)
  | none =>
    match searchBDAr t with
    | some g => dictSet m (storeKey "birth_date") (parse_date ⟨g⟩)
    | none => m

/-- Loop iteration for `birth_place`. -/
def birthPlaceStep (t : List Char) (m : FieldMap) : FieldMap :=
  match searchBPFr t with
  | some g => dictSet m (storeKey "birth_place") (some ⟨stripEnds g⟩)
  | none =>
    match searchBPAr t with
    | some g => dictSet m (storeKey "birth_place") (some ⟨stripEnds g⟩)
    | none => m

/-- Loop iteration for `expiry_date`. -/
def expiryStep (t : List Char) (m : FieldMap) : FieldMap :=
  match searchExFr t with
  | some g => dictSet m (storeKey "expiry_date") (parse_date ⟨g⟩)
  | none =>
    match searchExAr t with
    | some g => dictSet m (storeKey "expiry_date") (parse_date ⟨g⟩)
    | none => m

/-- The text `extract` matches against: normalization then boilerplate
removal. -/
def cleanedOf (s : String) : List Char := (clean_irrelevant_lines (normalize_text s)).data

/-- `MoroccanIDExtractor.extract`: normalize, clean, then the field
loop in the insertion order of `self.patterns`. -/
def extract (s : String) : FieldMap :=
  let t := cleanedOf s
  expiryStep t (birthPlaceStep t (birthDateStep t (nameStep t (cinStep t initExtracted))))

/-! ## Concrete inputs named by the claims -/

/-- The French-record scenario input of the spec. -/
def frRecordInput : String :=
  "NOM ET PRENOM: AHMED ALAMI Né le 12.05.1990 Valable jusqu" ++ apos.toString ++
    "au 12.05.2030"

/-- The boilerplate-removal scenario input of the spec. -/
def boilerInput : String :=
  "ROYAUME DU MAROC CARTE NATIONALE D" ++ apos.toString ++ "IDENTITE AB123456"

/-- A realization of the corrupted "valid until" fragment targeted by the
third removal pattern (matching it verbatim, fatha included). -/
def fragInput : String := "الحة إلى غَاية 12.2030"

-- scratch checks

/-- No two adjacent whitespace characters. -/
def noTwoSpaces (l : List Char) : Prop :=
  List.Chain' (fun a b => ¬(pyIsSpace a = true ∧ pyIsSpace b = true)) l

/-- Executable form of the no-adjacent-whitespace invariant. -/
def okRun : List Char → Bool
  | [] => true
  | [_] => true
  | a :: b :: t => (!(pyIsSpace a && pyIsSpace b)) && okRun (b :: t)

/-- The composed action of the sequential replacement loop on one
character. -/
def chainRepl (ps : List (Char × Char)) (c : Char) : Char :=
  ps.foldl (fun x p => if x = p.1 then p.2 else x) c

/-- Occurrence count of a character in a list. -/
def countC (x : Char) : List Char → Nat
  | [] => 0
  | c :: t => (if c = x then 1 else 0) + countC x t

/-- The ten Arabic-indic digit substitutions of `arabic_chars`. -/
def digitPairs : List (Char × Char) :=
  [('٠', '0'), ('١', '1'), ('٢', '2'), ('٣', '3'), ('٤', '4'),
   ('٥', '5'), ('٦', '6'), ('٧', '7'), ('٨', '8'), ('٩', '9')]

/-- Shape of a CIN match: one or two ASCII letters followed by exactly
six ASCII digits. -/
def cinShape (g : List Char) : Bool :=
  match g with
  | [a, d1, d2, d3, d4, d5, d6] =>
    isAsciiAlpha a && isDig d1 && isDig d2 && isDig d3 && isDig d4 && isDig d5 && isDig d6
  | [a, b, d1, d2, d3, d4, d5, d6] =>
    isAsciiAlpha a && isAsciiAlpha b && isDig d1 && isDig d2 && isDig d3 && isDig d4 &&
      isDig d5 && isDig d6
  | _ => false

/-- Case-sensitive prefix comparison of a pattern against a text. -/
def leadEq : List Char → List Char → Bool
  | [], _ => true
  | _ :: _, [] => false
  | p :: ps, c :: r => (c = p) && leadEq ps r

/-- Case-sensitive substring test. -/
def containsSub (pat : List Char) : List Char → Bool
  | [] => pat.isEmpty
  | c :: r => leadEq pat (c :: r) || containsSub pat r

/-! ## Association-table and dictionary lemmas -/

theorem assoc_some_mem {α : Type} {ps : List (Char × α)} {c : Char} {v : α}
    (h : assoc ps c = some v) : (c, v) ∈ ps := by
  induction ps with
  | nil => simp [assoc] at h
  | cons p t ih =>
    obtain ⟨k, v'⟩ := p
    by_cases hc : c = k
    · simp only [assoc, if_pos hc] at h
      obtain rfl := Option.some.inj h
      subst hc
      exact List.mem_cons_self _ _
    · simp only [assoc, if_neg hc] at h
      exact List.mem_cons_of_mem _ (ih h)

theorem assoc_none_ne_key {α : Type} {ps : List (Char × α)} {c : Char}
    (h : assoc ps c = none) : ∀ p ∈ ps, c ≠ p.1 := by
  induction ps with
  | nil => intro p hp; simp at hp
  | cons q t ih =>
    obtain ⟨k, v'⟩ := q
    by_cases hc : c = k
    · simp [assoc, if_pos hc] at h
    · simp only [assoc, if_neg hc] at h
      intro p hp
      rcases List.mem_cons.mp hp with rfl | hp'
      · exact hc
      · exact ih h p hp'

theorem dictGet_dictSet_self (m : FieldMap) (k : String) (v : Option String) :
    dictGet (dictSet m k v) k = some v := by
  induction m with
  | nil => simp [dictSet, dictGet]
  | cons p t ih =>
    obtain ⟨k', v'⟩ := p
    by_cases h : k' = k
    · simp [dictSet, if_pos h, dictGet, h]
    · simp [dictSet, if_neg h, dictGet, if_neg h, ih]

theorem dictGet_dictSet_ne (m : FieldMap) (k k' : String) (v : Option String)
    (h : k' ≠ k) : dictGet (dictSet m k v) k' = dictGet m k' := by
  induction m with
  | nil =>
    simp only [dictSet, dictGet]
    rw [if_neg (fun hh => h hh.symm)]
  | cons p t ih =>
    obtain ⟨k0, v0⟩ := p
    by_cases h0 : k0 = k
    · subst h0
      simp only [dictSet, if_pos rfl, dictGet]
      rw [if_neg (fun hh : k0 = k' => h hh.symm), if_neg (fun hh : k0 = k' => h hh.symm)]
    · simp only [dictSet, if_neg h0, dictGet]
      by_cases h1 : k0 = k'
      · rw [if_pos h1, if_pos h1]
      · rw [if_neg h1, if_neg h1]; exact ih

theorem isSome_dictGet_dictSet (m : FieldMap) (k k' : String) (v : Option String)
    (h : (dictGet m k').isSome = true) : (dictGet (dictSet m k v) k').isSome = true := by
  by_cases hk : k' = k
  · subst hk; rw [dictGet_dictSet_self]; rfl
  · rw [dictGet_dictSet_ne _ _ _ _ hk]; exact h

theorem length_dictSet_le (m : FieldMap) (k : String) (v : Option String) :
    (dictSet m k v).length ≤ m.length + 1 := by
  induction m with
  | nil => simp [dictSet]
  | cons p t ih =>
    obtain ⟨k0, v0⟩ := p
    by_cases h0 : k0 = k
    · simp [dictSet, if_pos h0]
    · simp only [dictSet, if_neg h0, List.length_cons]
      omega

theorem length_dictSet_of_some (m : FieldMap) (k : String) (v : Option String)
    (h : (dictGet m k).isSome = true) : (dictSet m k v).length = m.length := by
  induction m with
  | nil => simp [dictGet] at h
  | cons p t ih =>
    obtain ⟨k0, v0⟩ := p
    by_cases h0 : k0 = k
    · simp [dictSet, if_pos h0]
    · have h' : (dictGet t k).isSome = true := by
        simpa [dictGet, if_neg (fun hh : k0 = k => h0 hh)] using h
      simp [dictSet, if_neg h0, ih h']

/-! ## The computed store keys -/

theorem storeKey_cin : storeKey "cin_number" = "Cin Number" := by decide

theorem storeKey_name : storeKey "name" = "Name" := by decide

theorem storeKey_bd : storeKey "birth_date" = "Birth Date" := by decide

theorem storeKey_bp : storeKey "birth_place" = "Birth Place" := by decide

theorem storeKey_ex : storeKey "expiry_date" = "Expiry Date" := by decide

/-! ## Per-field loop-step lemmas -/

theorem cinStep_get_ne (t : List Char) (m : FieldMap) (k' : String)
    (h : k' ≠ "Cin Number") : dictGet (cinStep t m) k' = dictGet m k' := by
  unfold cinStep
  cases searchCin t with
  | none => rfl
  | some g => rw [storeKey_cin]; exact dictGet_dictSet_ne _ _ _ _ h

theorem nameStep_get_ne (t : List Char) (m : FieldMap) (k' : String)
    (h : k' ≠ "Name") : dictGet (nameStep t m) k' = dictGet m k' := by
  unfold nameStep
  cases searchNameFr t with
  | some g => rw [storeKey_name]; exact dictGet_dictSet_ne _ _ _ _ h
  | none =>
    cases searchNameAr t with
    | some g => rw [storeKey_name]; exact dictGet_dictSet_ne _ _ _ _ h
    | none => rfl

theorem birthDateStep_get_ne (t : List Char) (m : FieldMap) (k' : String)
    (h : k' ≠ "Birth Date") : dictGet (birthDateStep t m) k' = dictGet m k' := by
  unfold birthDateStep
  cases searchBDFr t with
  | some g => rw [storeKey_bd]; exact dictGet_dictSet_ne _ _ _ _ h
  | none =>
    cases searchBDAr t with
    | some g => rw [storeKey_bd]; exact dictGet_dictSet_ne _ _ _ _ h
    | none => rfl

theorem birthPlaceStep_get_ne (t : List Char) (m : FieldMap) (k' : String)
    (h : k' ≠ "Birth Place") : dictGet (birthPlaceStep t m) k' = dictGet m k' := by
  unfold birthPlaceStep
  cases searchBPFr t with
  | some g => rw [storeKey_bp]; exact dictGet_dictSet_ne _ _ _ _ h
  | none =>
    cases searchBPAr t with
    | some g => rw [storeKey_bp]; exact dictGet_dictSet_ne _ _ _ _ h
    | none => rfl

theorem expiryStep_get_ne (t : List Char) (m : FieldMap) (k' : String)
    (h : k' ≠ "Expiry Date") : dictGet (expiryStep t m) k' = dictGet m k' := by
  unfold expiryStep
  cases searchExFr t with
  | some g => rw [storeKey_ex]; exact dictGet_dictSet_ne _ _ _ _ h
  | none =>
    cases searchExAr t with
    | some g => rw [storeKey_ex]; exact dictGet_dictSet_ne _ _ _ _ h
    | none => rfl

theorem cinStep_isSome (t : List Char) (m : FieldMap) (k' : String)
    (h : (dictGet m k').isSome = true) : (dictGet (cinStep t m) k').isSome = true := by
  unfold cinStep
  cases searchCin t with
  | none => exact h
  | some g => exact isSome_dictGet_dictSet _ _ _ _ h

theorem nameStep_isSome (t : List Char) (m : FieldMap) (k' : String)
    (h : (dictGet m k').isSome = true) : (dictGet (nameStep t m) k').isSome = true := by
  unfold nameStep
  cases searchNameFr t with
  | some g => exact isSome_dictGet_dictSet _ _ _ _ h
  | none =>
    cases searchNameAr t with
    | some g => exact isSome_dictGet_dictSet _ _ _ _ h
    | none => exact h

theorem birthDateStep_isSome (t : List Char) (m : FieldMap) (k' : String)
    (h : (dictGet m k').isSome = true) : (dictGet (birthDateStep t m) k').isSome = true := by
  unfold birthDateStep
  cases searchBDFr t with
  | some g => exact isSome_dictGet_dictSet _ _ _ _ h
  | none =>
    cases searchBDAr t with
    | some g => exact isSome_dictGet_dictSet _ _ _ _ h
    | none => exact h

theorem birthPlaceStep_isSome (t : List Char) (m : FieldMap) (k' : String)
    (h : (dictGet m k').isSome = true) : (dictGet (birthPlaceStep t m) k').isSome = true := by
  unfold birthPlaceStep
  cases searchBPFr t with
  | some g => exact isSome_dictGet_dictSet _ _ _ _ h
  | none =>
    cases searchBPAr t with
    | some g => exact isSome_dictGet_dictSet _ _ _ _ h
    | none => exact h

theorem expiryStep_isSome (t : List Char) (m : FieldMap) (k' : String)
    (h : (dictGet m k').isSome = true) : (dictGet (expiryStep t m) k').isSome = true := by
  unfold expiryStep
  cases searchExFr t with
  | some g => exact isSome_dictGet_dictSet _ _ _ _ h
  | none =>
    cases searchExAr t with
    | some g => exact isSome_dictGet_dictSet _ _ _ _ h
    | none => exact h

theorem cinStep_length (t : List Char) (m : FieldMap) :
    (cinStep t m).length ≤ m.length + 1 := by
  unfold cinStep
  cases searchCin t with
  | none => exact Nat.le_succ _
  | some g => exact length_dictSet_le _ _ _

theorem nameStep_length (t : List Char) (m : FieldMap) :
    (nameStep t m).length ≤ m.length + 1 := by
  unfold nameStep
  cases searchNameFr t with
  | some g => exact length_dictSet_le _ _ _
  | none =>
    cases searchNameAr t with
    | some g => exact length_dictSet_le _ _ _
    | none => exact Nat.le_succ _

theorem birthDateStep_length (t : List Char) (m : FieldMap) :
    (birthDateStep t m).length ≤ m.length + 1 := by
  unfold birthDateStep
  cases searchBDFr t with
  | some g => exact length_dictSet_le _ _ _
  | none =>
    cases searchBDAr t with
    | some g => exact length_dictSet_le _ _ _
    | none => exact Nat.le_succ _

theorem birthPlaceStep_length (t : List Char) (m : FieldMap) :
    (birthPlaceStep t m).length ≤ m.length + 1 := by
  unfold birthPlaceStep
  cases searchBPFr t with
  | some g => exact length_dictSet_le _ _ _
  | none =>
    cases searchBPAr t with
    | some g => exact length_dictSet_le _ _ _
    | none => exact Nat.le_succ _

theorem expiryStep_length_of_some (t : List Char) (m : FieldMap)
    (h : (dictGet m "Expiry Date").isSome = true) :
    (expiryStep t m).length = m.length := by
  unfold expiryStep
  cases searchExFr t with
  | some g => rw [storeKey_ex]; exact length_dictSet_of_some _ _ _ h
  | none =>
    cases searchExAr t with
    | some g => rw [storeKey_ex]; exact length_dictSet_of_some _ _ _ h
    | none => rfl

/-! ## Canonical forms of normalized text (infrastructure for
idempotence and the normalization invariants) -/

theorem okRun_eq_chain (l : List Char) : okRun l = true ↔ noTwoSpaces l := by
  induction l with
  | nil => simp [okRun, noTwoSpaces]
  | cons a t ih =>
    cases t with
    | nil => simp [okRun, noTwoSpaces]
    | cons b u =>
      unfold noTwoSpaces at ih ⊢
      rw [List.chain'_cons, ← ih]
      show ((!(pyIsSpace a && pyIsSpace b)) && okRun (b :: u)) = true ↔ _
      rw [Bool.and_eq_true]
      constructor
      · rintro ⟨h1, h2⟩
        refine ⟨?_, h2⟩
        rintro ⟨ha, hb⟩
        rw [ha, hb] at h1
        exact Bool.noConfusion h1
      · rintro ⟨h1, h2⟩
        refine ⟨?_, h2⟩
        by_cases ha : pyIsSpace a = true
        · by_cases hb : pyIsSpace b = true
          · exact absurd ⟨ha, hb⟩ h1
          · rw [Bool.not_eq_true] at hb
            rw [ha, hb]
            rfl
        · rw [Bool.not_eq_true] at ha
          rw [ha]
          rfl

theorem tblNfkdValStable : ∀ p ∈ nfkdTable, ∀ c ∈ p.2, assoc nfkdTable c = none := by decide

theorem tblArValStable : ∀ p ∈ arabic_chars, assoc nfkdTable p.2 = none := by decide

theorem tblArValNotKey : ∀ p ∈ arabic_chars, assoc arabic_chars p.2 = none := by decide

theorem tblArValNotComb : ∀ p ∈ arabic_chars, isComb p.2 = false := by decide

theorem tblArSpace : ∀ p ∈ arabic_chars, pyIsSpace p.1 = false ∧ pyIsSpace p.2 = false := by
  decide

theorem tblArNoValKey : ∀ p ∈ arabic_chars, ∀ q ∈ arabic_chars, p.2 ≠ q.1 := by decide

theorem nfkdChar_of_none {c : Char} (h : assoc nfkdTable c = none) : nfkdChar c = [c] := by
  unfold nfkdChar; rw [h]

theorem nfkd_stable_of_mem {c c' : Char} (h : c' ∈ nfkdChar c) : nfkdChar c' = [c'] := by
  unfold nfkdChar at h
  cases hA : assoc nfkdTable c with
  | none =>
    rw [hA] at h
    simp only [List.mem_singleton] at h
    subst h
    exact nfkdChar_of_none hA
  | some d =>
    rw [hA] at h
    exact nfkdChar_of_none (tblNfkdValStable _ (assoc_some_mem hA) _ h)

theorem arabicLookup_of_none {c : Char} (h : assoc arabic_chars c = none) :
    arabicLookup c = c := by
  unfold arabicLookup; rw [h]

theorem arabicLookup_of_some {c v : Char} (h : assoc arabic_chars c = some v) :
    arabicLookup c = v := by
  unfold arabicLookup; rw [h]

theorem arabicLookup_idem (c : Char) : arabicLookup (arabicLookup c) = arabicLookup c := by
  cases hA : assoc arabic_chars c with
  | none => rw [arabicLookup_of_none hA, arabicLookup_of_none hA]
  | some v =>
    rw [arabicLookup_of_some hA,
      arabicLookup_of_none (tblArValNotKey _ (assoc_some_mem hA))]

theorem pyIsSpace_arabicLookup (c : Char) : pyIsSpace (arabicLookup c) = pyIsSpace c := by
  cases hA : assoc arabic_chars c with
  | none => rw [arabicLookup_of_none hA]
  | some v =>
    rw [arabicLookup_of_some hA]
    have h := tblArSpace _ (assoc_some_mem hA)
    rw [show pyIsSpace v = false from h.2, show pyIsSpace c = false from h.1]

theorem isComb_arabicLookup {c : Char} (h : isComb c = false) :
    isComb (arabicLookup c) = false := by
  cases hA : assoc arabic_chars c with
  | none => rw [arabicLookup_of_none hA]; exact h
  | some v => rw [arabicLookup_of_some hA]; exact tblArValNotComb _ (assoc_some_mem hA)

theorem nfkdStable_arabicLookup {c : Char} (h : nfkdChar c = [c]) :
    nfkdChar (arabicLookup c) = [arabicLookup c] := by
  cases hA : assoc arabic_chars c with
  | none => rw [arabicLookup_of_none hA]; exact h
  | some v =>
    rw [arabicLookup_of_some hA]
    exact nfkdChar_of_none (tblArValStable _ (assoc_some_mem hA))

theorem mapCongr {α β : Type} {f g : α → β} :
    ∀ l : List α, (∀ a ∈ l, f a = g a) → l.map f = l.map g := by
  intro l
  induction l with
  | nil => intro _; rfl
  | cons a t ih =>
    intro h
    rw [List.map_cons, List.map_cons, h a (List.mem_cons_self _ _),
      ih (fun b hb => h b (List.mem_cons_of_mem _ hb))]

theorem foldl_repl_eq_map (ps : List (Char × Char)) (l : List Char) :
    ps.foldl (fun acc p => acc.map (fun c => if c = p.1 then p.2 else c)) l =
      l.map (chainRepl ps) := by
  induction ps generalizing l with
  | nil =>
    show l = l.map (fun c => c)
    exact (List.map_id' l).symm
  | cons p t ih =>
    rw [List.foldl_cons, ih, List.map_map]
    rfl

theorem chainRepl_not_key (ps : List (Char × Char)) (c : Char)
    (h : ∀ p ∈ ps, c ≠ p.1) : chainRepl ps c = c := by
  induction ps with
  | nil => rfl
  | cons p t ih =>
    have hne : ¬c = p.1 := h p (List.mem_cons_self _ _)
    show List.foldl _ (if c = p.1 then p.2 else c) t = c
    rw [if_neg hne]
    exact ih (fun q hq => h q (List.mem_cons_of_mem _ hq))

theorem chainRepl_eq_lookup (ps : List (Char × Char))
    (hvk : ∀ p ∈ ps, ∀ q ∈ ps, p.2 ≠ q.1) (c : Char) :
    chainRepl ps c = (match assoc ps c with | some v => v | none => c) := by
  induction ps with
  | nil => rfl
  | cons p t ih =>
    obtain ⟨k, v⟩ := p
    by_cases hc : c = k
    · subst hc
      have h1 : chainRepl ((c, v) :: t) c = chainRepl t v := by
        show List.foldl _ (if c = c then v else c) t = _
        rw [if_pos rfl]
        rfl
      have h2 : chainRepl t v = v := by
        apply chainRepl_not_key
        intro q hq
        exact hvk (c, v) (List.mem_cons_self _ _) q (List.mem_cons_of_mem _ hq)
      rw [h1, h2]
      simp [assoc]
    · have h1 : chainRepl ((k, v) :: t) c = chainRepl t c := by
        show List.foldl _ (if c = k then v else c) t = _
        rw [if_neg hc]
        rfl
      rw [h1, ih (fun p hp q hq => hvk p (List.mem_cons_of_mem _ hp) q (List.mem_cons_of_mem _ hq))]
      simp [assoc, if_neg hc]

theorem applyArabicRepl_eq_map (l : List Char) : applyArabicRepl l = l.map arabicLookup := by
  unfold applyArabicRepl
  rw [foldl_repl_eq_map]
  apply mapCongr
  intro c _
  rw [chainRepl_eq_lookup arabic_chars tblArNoValKey c]
  rfl

theorem normalizeL_eq_map (l : List Char) : normalizeL l = (midNormL l).map arabicLookup := by
  unfold normalizeL midNormL
  rw [applyArabicRepl_eq_map]

theorem mem_dropWhileL {α : Type} {q : α → Bool} {l : List α} {c : α}
    (h : c ∈ l.dropWhile q) : c ∈ l := by
  induction l with
  | nil => simp at h
  | cons a t ih =>
    by_cases ha : q a = true
    · rw [List.dropWhile_cons, if_pos ha] at h
      exact List.mem_cons_of_mem _ (ih h)
    · rw [List.dropWhile_cons, if_neg ha] at h
      exact h

theorem mem_stripEnds {l : List Char} {c : Char} (h : c ∈ stripEnds l) : c ∈ l := by
  unfold stripEnds at h
  rw [List.mem_reverse] at h
  have h2 := mem_dropWhileL h
  rw [List.mem_reverse] at h2
  exact mem_dropWhileL h2

theorem mem_collapseWsAux {c : Char} :
    ∀ (b : Bool) (l : List Char), c ∈ collapseWsAux b l →
      c = ' ' ∨ (c ∈ l ∧ pyIsSpace c = false) := by
  intro b l
  induction l generalizing b with
  | nil => intro h; simp [collapseWsAux] at h
  | cons a t ih =>
    intro h
    by_cases ha : pyIsSpace a = true
    · cases b with
      | true =>
        have e : collapseWsAux true (a :: t) = collapseWsAux true t := by
          simp [collapseWsAux, ha]
        rw [e] at h
        rcases ih true h with h' | ⟨hm, hs⟩
        · exact Or.inl h'
        · exact Or.inr ⟨List.mem_cons_of_mem _ hm, hs⟩
      | false =>
        have e : collapseWsAux false (a :: t) = ' ' :: collapseWsAux true t := by
          simp [collapseWsAux, ha]
        rw [e] at h
        rcases List.mem_cons.mp h with rfl | h'
        · exact Or.inl rfl
        · rcases ih true h' with h'' | ⟨hm, hs⟩
          · exact Or.inl h''
          · exact Or.inr ⟨List.mem_cons_of_mem _ hm, hs⟩
    · rw [Bool.not_eq_true] at ha
      have e : collapseWsAux b (a :: t) = a :: collapseWsAux false t := by
        cases b <;> simp [collapseWsAux, ha]
      rw [e] at h
      rcases List.mem_cons.mp h with rfl | h'
      · exact Or.inr ⟨List.mem_cons_self _ _, ha⟩
      · rcases ih false h' with h'' | ⟨hm, hs⟩
        · exact Or.inl h''
        · exact Or.inr ⟨List.mem_cons_of_mem _ hm, hs⟩

theorem chain_collapse : ∀ l : List Char,
    noTwoSpaces (collapseWsAux false l) ∧ noTwoSpaces (collapseWsAux true l) ∧
    (∀ c, (collapseWsAux true l).head? = some c → pyIsSpace c = false) := by
  intro l
  induction l with
  | nil =>
    refine ⟨List.chain'_nil, List.chain'_nil, ?_⟩
    intro c h
    simp [collapseWsAux] at h
  | cons a t ih =>
    obtain ⟨ih1, ih2, ih3⟩ := ih
    by_cases ha : pyIsSpace a = true
    · have e1 : collapseWsAux false (a :: t) = ' ' :: collapseWsAux true t := by
        simp [collapseWsAux, ha]
      have e2 : collapseWsAux true (a :: t) = collapseWsAux true t := by
        simp [collapseWsAux, ha]
      refine ⟨?_, by rw [e2]; exact ih2, by rw [e2]; exact ih3⟩
      rw [e1]
      apply List.chain'_cons'.mpr
      refine ⟨?_, ih2⟩
      intro b hb
      intro hx
      rw [ih3 b hb] at hx
      exact Bool.false_ne_true hx.2
    · rw [Bool.not_eq_true] at ha
      have e3 : collapseWsAux false (a :: t) = a :: collapseWsAux false t := by
        simp [collapseWsAux, ha]
      have e4 : collapseWsAux true (a :: t) = a :: collapseWsAux false t := by
        simp [collapseWsAux, ha]
      have hchain : noTwoSpaces (a :: collapseWsAux false t) := by
        apply List.chain'_cons'.mpr
        refine ⟨?_, ih1⟩
        intro b _ hx
        rw [ha] at hx
        exact Bool.false_ne_true hx.1
      refine ⟨by rw [e3]; exact hchain, by rw [e4]; exact hchain, ?_⟩
      intro c hc
      rw [e4] at hc
      obtain rfl : a = c := by simpa using hc
      exact ha

theorem noTwoSpaces_tail {a : Char} {l : List Char} (h : noTwoSpaces (a :: l)) :
    noTwoSpaces l :=
  (List.chain'_cons'.mp h).2

theorem noTwoSpaces_dropWhile {q : Char → Bool} {l : List Char} (h : noTwoSpaces l) :
    noTwoSpaces (l.dropWhile q) := by
  induction l with
  | nil => exact h
  | cons a t ih =>
    by_cases ha : q a = true
    · rw [List.dropWhile_cons, if_pos ha]
      exact ih (noTwoSpaces_tail h)
    · rw [List.dropWhile_cons, if_neg ha]
      exact h

theorem noTwoSpaces_reverse {l : List Char} (h : noTwoSpaces l) : noTwoSpaces l.reverse := by
  unfold noTwoSpaces at h ⊢
  rw [List.chain'_reverse]
  exact h.imp (fun a b hab => fun hx => hab ⟨hx.2, hx.1⟩)

theorem noTwoSpaces_stripEnds {l : List Char} (h : noTwoSpaces l) :
    noTwoSpaces (stripEnds l) :=
  noTwoSpaces_reverse (noTwoSpaces_dropWhile (noTwoSpaces_reverse (noTwoSpaces_dropWhile h)))

theorem noTwoSpaces_map_arab {l : List Char} (h : noTwoSpaces l) :
    noTwoSpaces (l.map arabicLookup) := by
  unfold noTwoSpaces at h ⊢
  rw [List.chain'_map]
  exact h.imp (fun a b hab => by
    rw [pyIsSpace_arabicLookup, pyIsSpace_arabicLookup]
    exact hab)

theorem headNotSpace_dropWhile (l : List Char) :
    ∀ c, (l.dropWhile pyIsSpace).head? = some c → pyIsSpace c = false := by
  induction l with
  | nil => intro c h; simp at h
  | cons a t ih =>
    intro c h
    by_cases ha : pyIsSpace a = true
    · rw [List.dropWhile_cons, if_pos ha] at h
      exact ih c h
    · rw [List.dropWhile_cons, if_neg ha] at h
      obtain rfl : a = c := by simpa using h
      rwa [Bool.not_eq_true] at ha

theorem getLast?_dropWhileL {q : Char → Bool} {l : List Char}
    (h : l.dropWhile q ≠ []) : (l.dropWhile q).getLast? = l.getLast? := by
  induction l with
  | nil => simp at h
  | cons a t ih =>
    by_cases ha : q a = true
    · rw [List.dropWhile_cons, if_pos ha] at h ⊢
      have ht : t ≠ [] := by
        intro he
        rw [he] at h
        simp at h
      rw [ih h]
      cases t with
      | nil => exact absurd rfl ht
      | cons b u => rw [List.getLast?_cons_cons]
    · rw [List.dropWhile_cons, if_neg ha]

theorem stripEnds_head {l : List Char} {c : Char} (h : (stripEnds l).head? = some c) :
    pyIsSpace c = false := by
  unfold stripEnds at h
  rw [List.head?_reverse] at h
  have hne : (List.dropWhile pyIsSpace (List.dropWhile pyIsSpace l).reverse) ≠ [] := by
    intro he
    rw [he] at h
    simp at h
  rw [getLast?_dropWhileL hne, List.getLast?_reverse] at h
  exact headNotSpace_dropWhile l c h

theorem stripEnds_last {l : List Char} {c : Char} (h : (stripEnds l).getLast? = some c) :
    pyIsSpace c = false := by
  unfold stripEnds at h
  rw [List.getLast?_reverse] at h
  exact headNotSpace_dropWhile _ c h

theorem head?_mapL {α β : Type} (f : α → β) (l : List α) :
    (l.map f).head? = l.head?.map f := by
  cases l <;> rfl

theorem getLast?_mapL {α β : Type} (f : α → β) (l : List α) :
    (l.map f).getLast? = l.getLast?.map f := by
  rw [← List.head?_reverse, ← List.map_reverse, head?_mapL, List.head?_reverse]

/-! ## Identity of the pipeline on canonical text -/

theorem flatMap_nfkd_id {l : List Char} (h : ∀ c ∈ l, nfkdChar c = [c]) :
    l.flatMap nfkdChar = l := by
  induction l with
  | nil => rfl
  | cons a t ih =>
    rw [List.flatMap_cons, h a (List.mem_cons_self _ _),
      ih (fun c hc => h c (List.mem_cons_of_mem _ hc))]
    rfl

theorem filter_comb_id {l : List Char} (h : ∀ c ∈ l, isComb c = false) :
    stripCombining l = l := by
  induction l with
  | nil => rfl
  | cons a t ih =>
    unfold stripCombining at ih ⊢
    rw [List.filter_cons]
    have hcond : (!isComb a) = true := by rw [h a (List.mem_cons_self _ _)]; rfl
    rw [if_pos hcond, ih (fun c hc => h c (List.mem_cons_of_mem _ hc))]

theorem collapse_id (l : List Char) (hsp : ∀ c ∈ l, pyIsSpace c = true → c = ' ')
    (hchB : okRun l = true) :
    collapseWsAux false l = l ∧
    ((∀ c, l.head? = some c → pyIsSpace c = false) → collapseWsAux true l = l) := by
  induction l with
  | nil => exact ⟨rfl, fun _ => rfl⟩
  | cons a t ih =>
    have hch : noTwoSpaces (a :: t) := (okRun_eq_chain _).mp hchB
    obtain ⟨ih1, ih2⟩ :=
      ih (fun c hc hs => hsp c (List.mem_cons_of_mem _ hc) hs)
        ((okRun_eq_chain _).mpr (noTwoSpaces_tail hch))
    by_cases ha : pyIsSpace a = true
    · have haa : a = ' ' := hsp a (List.mem_cons_self _ _) ha
      have hhead : ∀ c, t.head? = some c → pyIsSpace c = false := by
        intro c hc
        cases t with
        | nil => simp at hc
        | cons b u =>
          obtain rfl : b = c := by simpa using hc
          by_cases hb : pyIsSpace b = true
          · exact absurd ⟨ha, hb⟩ (List.chain'_cons.mp hch).1
          · rwa [Bool.not_eq_true] at hb
      have e1 : collapseWsAux false (a :: t) = ' ' :: collapseWsAux true t := by
        simp [collapseWsAux, ha]
      constructor
      · rw [e1, ih2 hhead, haa]
      · intro hpre
        rw [hpre a rfl] at ha
        exact absurd ha Bool.false_ne_true
    · rw [Bool.not_eq_true] at ha
      have e3 : collapseWsAux false (a :: t) = a :: collapseWsAux false t := by
        simp [collapseWsAux, ha]
      have e4 : collapseWsAux true (a :: t) = a :: collapseWsAux false t := by
        simp [collapseWsAux, ha]
      exact ⟨by rw [e3, ih1], fun _ => by rw [e4, ih1]⟩

theorem dropWhile_id {q : Char → Bool} {l : List Char}
    (h : ∀ c, l.head? = some c → q c = false) : l.dropWhile q = l := by
  cases l with
  | nil => rfl
  | cons a t =>
    rw [List.dropWhile_cons, if_neg (by simp [h a rfl])]

theorem stripEnds_id {l : List Char} (h1 : ∀ c, l.head? = some c → pyIsSpace c = false)
    (h2 : ∀ c, l.getLast? = some c → pyIsSpace c = false) : stripEnds l = l := by
  unfold stripEnds
  rw [dropWhile_id h1]
  rw [dropWhile_id (fun c hc => h2 c (by rwa [List.head?_reverse] at hc))]
  exact List.reverse_reverse l

theorem map_arab_id {l : List Char} (h : ∀ c ∈ l, arabicLookup c = c) :
    l.map arabicLookup = l := by
  induction l with
  | nil => rfl
  | cons a t ih =>
    rw [List.map_cons, h a (List.mem_cons_self _ _),
      ih (fun c hc => h c (List.mem_cons_of_mem _ hc))]

/-! ## Canonical-form facts about the normalizer's output -/

theorem midNorm_stable (l : List Char) : ∀ c ∈ midNormL l, nfkdChar c = [c] := by
  intro c hc
  rcases mem_collapseWsAux false _ (mem_stripEnds hc) with rfl | ⟨hc3, _⟩
  · exact nfkdChar_of_none (by decide)
  · simp only [stripCombining] at hc3
    obtain ⟨a, _, hmem⟩ := List.mem_flatMap.mp (List.mem_filter.mp hc3).1
    exact nfkd_stable_of_mem hmem

theorem midNorm_noComb (l : List Char) : ∀ c ∈ midNormL l, isComb c = false := by
  intro c hc
  rcases mem_collapseWsAux false _ (mem_stripEnds hc) with rfl | ⟨hc3, _⟩
  · decide
  · simp only [stripCombining] at hc3
    have := (List.mem_filter.mp hc3).2
    rwa [Bool.not_eq_true'] at this

theorem midNorm_spacesCanon (l : List Char) :
    ∀ c ∈ midNormL l, pyIsSpace c = true → c = ' ' := by
  intro c hc hs
  rcases mem_collapseWsAux false _ (mem_stripEnds hc) with rfl | ⟨_, hns⟩
  · rfl
  · rw [hs] at hns
    exact Bool.noConfusion hns

theorem midNorm_chain (l : List Char) : okRun (midNormL l) = true :=
  (okRun_eq_chain _).mpr (noTwoSpaces_stripEnds (chain_collapse _).1)

theorem normalizeL_stable (l : List Char) : ∀ c ∈ normalizeL l, nfkdChar c = [c] := by
  rw [normalizeL_eq_map]
  intro c hc
  obtain ⟨c', hc', rfl⟩ := List.mem_map.mp hc
  exact nfkdStable_arabicLookup (midNorm_stable l c' hc')

theorem normalizeL_noComb (l : List Char) : ∀ c ∈ normalizeL l, isComb c = false := by
  rw [normalizeL_eq_map]
  intro c hc
  obtain ⟨c', hc', rfl⟩ := List.mem_map.mp hc
  exact isComb_arabicLookup (midNorm_noComb l c' hc')

theorem normalizeL_spacesCanon (l : List Char) :
    ∀ c ∈ normalizeL l, pyIsSpace c = true → c = ' ' := by
  rw [normalizeL_eq_map]
  intro c hc hs
  obtain ⟨c', hc', rfl⟩ := List.mem_map.mp hc
  rw [pyIsSpace_arabicLookup] at hs
  rw [midNorm_spacesCanon l c' hc' hs]
  exact arabicLookup_of_none (by decide)

theorem normalizeL_chain (l : List Char) : okRun (normalizeL l) = true := by
  apply (okRun_eq_chain _).mpr
  rw [normalizeL_eq_map]
  exact noTwoSpaces_map_arab ((okRun_eq_chain _).mp (midNorm_chain l))

theorem normalizeL_head (l : List Char) :
    ∀ c, (normalizeL l).head? = some c → pyIsSpace c = false := by
  intro c hc
  rw [normalizeL_eq_map, head?_mapL] at hc
  cases hh : (midNormL l).head? with
  | none => rw [hh] at hc; simp at hc
  | some c' =>
    rw [hh] at hc
    obtain rfl : arabicLookup c' = c := by simpa using hc
    rw [pyIsSpace_arabicLookup]
    exact stripEnds_head hh

theorem normalizeL_last (l : List Char) :
    ∀ c, (normalizeL l).getLast? = some c → pyIsSpace c = false := by
  intro c hc
  rw [normalizeL_eq_map, getLast?_mapL] at hc
  cases hh : (midNormL l).getLast? with
  | none => rw [hh] at hc; simp at hc
  | some c' =>
    rw [hh] at hc
    obtain rfl : arabicLookup c' = c := by simpa using hc
    rw [pyIsSpace_arabicLookup]
    exact stripEnds_last hh

theorem normalizeL_arabFix (l : List Char) : ∀ c ∈ normalizeL l, arabicLookup c = c := by
  rw [normalizeL_eq_map]
  intro c hc
  obtain ⟨c', _, rfl⟩ := List.mem_map.mp hc
  exact arabicLookup_idem c'

theorem normalizeL_idem (l : List Char) : normalizeL (normalizeL l) = normalizeL l := by
  have h1 : (normalizeL l).flatMap nfkdChar = normalizeL l :=
    flatMap_nfkd_id (normalizeL_stable l)
  have h2 : stripCombining (normalizeL l) = normalizeL l :=
    filter_comb_id (normalizeL_noComb l)
  have h3 : collapseWs (normalizeL l) = normalizeL l := by
    exact (collapse_id (normalizeL l) (normalizeL_spacesCanon l) (normalizeL_chain l)).1
  have h4 : stripEnds (normalizeL l) = normalizeL l :=
    stripEnds_id (normalizeL_head l) (normalizeL_last l)
  have h5 : applyArabicRepl (normalizeL l) = normalizeL l := by
    rw [applyArabicRepl_eq_map]
    exact map_arab_id (normalizeL_arabFix l)
  calc normalizeL (normalizeL l)
      = applyArabicRepl (stripEnds (collapseWs (stripCombining
          ((normalizeL l).flatMap nfkdChar)))) := rfl
    _ = normalizeL l := by rw [h1, h2, h3, h4, h5]

/-! ## Character counts through the normalizer (for the digit and
letterform canonicalization invariants) -/

theorem countC_append (x : Char) (l1 l2 : List Char) :
    countC x (l1 ++ l2) = countC x l1 + countC x l2 := by
  induction l1 with
  | nil =>
    show countC x l2 = 0 + countC x l2
    omega
  | cons c t ih =>
    show (if c = x then 1 else 0) + countC x (t ++ l2) = _
    rw [ih]
    show _ = (if c = x then 1 else 0) + countC x t + countC x l2
    omega

theorem countC_eq_zero {x : Char} {l : List Char} (h : x ∉ l) : countC x l = 0 := by
  induction l with
  | nil => rfl
  | cons c t ih =>
    have hcx : ¬c = x := fun hh => h (hh ▸ List.mem_cons_self _ _)
    show (if c = x then 1 else 0) + countC x t = 0
    rw [if_neg hcx, ih (fun hm => h (List.mem_cons_of_mem _ hm))]

theorem countC_reverse (x : Char) (l : List Char) : countC x l.reverse = countC x l := by
  induction l with
  | nil => rfl
  | cons c t ih =>
    rw [List.reverse_cons, countC_append, ih]
    show _ = (if c = x then 1 else 0) + countC x t
    show countC x t + ((if c = x then 1 else 0) + 0) = _
    omega

theorem countC_nfkdChar (x : Char) (hx : ∀ p ∈ nfkdTable, x ≠ p.1 ∧ x ∉ p.2) (c : Char) :
    countC x (nfkdChar c) = countC x [c] := by
  cases hA : assoc nfkdTable c with
  | none => rw [nfkdChar_of_none hA]
  | some d =>
    unfold nfkdChar
    rw [hA]
    have hp := hx _ (assoc_some_mem hA)
    rw [countC_eq_zero hp.2, countC_eq_zero (by simpa using fun hh : x = c => hp.1 hh)]

theorem countC_flatMap (x : Char) (hx : ∀ p ∈ nfkdTable, x ≠ p.1 ∧ x ∉ p.2)
    (l : List Char) : countC x (l.flatMap nfkdChar) = countC x l := by
  induction l with
  | nil => rfl
  | cons c t ih =>
    rw [List.flatMap_cons, countC_append, ih, countC_nfkdChar x hx c]
    show countC x [c] + countC x t = (if c = x then 1 else 0) + countC x t
    show (if c = x then 1 else 0) + 0 + countC x t = _
    omega

theorem countC_filterComb (x : Char) (hc : isComb x = false) (l : List Char) :
    countC x (stripCombining l) = countC x l := by
  induction l with
  | nil => rfl
  | cons c t ih =>
    unfold stripCombining at ih ⊢
    rw [List.filter_cons]
    by_cases hcc : isComb c = true
    · have hne : ¬c = x := fun hh => by rw [hh, hc] at hcc; exact Bool.noConfusion hcc
      rw [if_neg (by simp [hcc]), ih]
      show countC x t = (if c = x then 1 else 0) + countC x t
      rw [if_neg hne]
      omega
    · rw [Bool.not_eq_true] at hcc
      rw [if_pos (by simp [hcc])]
      show (if c = x then 1 else 0) + _ = (if c = x then 1 else 0) + _
      rw [ih]

theorem countC_collapse (x : Char) (hs : pyIsSpace x = false) :
    ∀ (b : Bool) (l : List Char), countC x (collapseWsAux b l) = countC x l := by
  intro b l
  induction l generalizing b with
  | nil => cases b <;> rfl
  | cons c t ih =>
    by_cases hc : pyIsSpace c = true
    · have hcx : ¬c = x := fun hh => by rw [hh, hs] at hc; exact Bool.noConfusion hc
      have hsx : ¬(' ' = x) := fun hh => by rw [← hh] at hs; exact Bool.noConfusion hs
      cases b with
      | true =>
        have e : collapseWsAux true (c :: t) = collapseWsAux true t := by
          simp [collapseWsAux, hc]
        rw [e, ih true]
        show _ = (if c = x then 1 else 0) + countC x t
        rw [if_neg hcx]
        omega
      | false =>
        have e : collapseWsAux false (c :: t) = ' ' :: collapseWsAux true t := by
          simp [collapseWsAux, hc]
        rw [e]
        show (if ' ' = x then 1 else 0) + countC x (collapseWsAux true t) = _
        rw [if_neg hsx, ih true]
        show _ = (if c = x then 1 else 0) + countC x t
        rw [if_neg hcx]
    · rw [Bool.not_eq_true] at hc
      have e : collapseWsAux b (c :: t) = c :: collapseWsAux false t := by
        cases b <;> simp [collapseWsAux, hc]
      rw [e]
      show (if c = x then 1 else 0) + countC x (collapseWsAux false t) =
        (if c = x then 1 else 0) + countC x t
      rw [ih false]

theorem countC_dropWhileSpace (x : Char) (hs : pyIsSpace x = false) (l : List Char) :
    countC x (l.dropWhile pyIsSpace) = countC x l := by
  induction l with
  | nil => rfl
  | cons c t ih =>
    by_cases hc : pyIsSpace c = true
    · have hcx : ¬c = x := fun hh => by rw [hh, hs] at hc; exact Bool.noConfusion hc
      rw [List.dropWhile_cons, if_pos hc, ih]
      show countC x t = (if c = x then 1 else 0) + countC x t
      rw [if_neg hcx]
      omega
    · rw [List.dropWhile_cons, if_neg hc]

theorem countC_stripEnds (x : Char) (hs : pyIsSpace x = false) (l : List Char) :
    countC x (stripEnds l) = countC x l := by
  unfold stripEnds
  rw [countC_reverse, countC_dropWhileSpace x hs, countC_reverse, countC_dropWhileSpace x hs]

theorem countC_midNorm (x : Char) (hnf : ∀ p ∈ nfkdTable, x ≠ p.1 ∧ x ∉ p.2)
    (hc : isComb x = false) (hs : pyIsSpace x = false) (l : List Char) :
    countC x (midNormL l) = countC x l := by
  unfold midNormL collapseWs
  rw [countC_stripEnds x hs, countC_collapse x hs, countC_filterComb x hc,
    countC_flatMap x hnf]

theorem countC_map_zero (f : Char → Char) (x : Char) (h : ∀ c, f c ≠ x)
    (l : List Char) : countC x (l.map f) = 0 := by
  induction l with
  | nil => rfl
  | cons c t ih =>
    rw [List.map_cons]
    show (if f c = x then 1 else 0) + countC x (t.map f) = 0
    rw [if_neg (h c), ih]

theorem countC_map_pre (f : Char → Char) (w a : Char) (hne : a ≠ w)
    (hiff : ∀ c, f c = w ↔ (c = w ∨ c = a)) (l : List Char) :
    countC w (l.map f) = countC w l + countC a l := by
  induction l with
  | nil => rfl
  | cons c t ih =>
    rw [List.map_cons]
    show (if f c = w then 1 else 0) + countC w (t.map f) =
      ((if c = w then 1 else 0) + countC w t) + ((if c = a then 1 else 0) + countC a t)
    rw [ih]
    by_cases hc : f c = w
    · rcases (hiff c).mp hc with rfl | rfl
      · rw [if_pos hc, if_pos rfl, if_neg (fun hh : c = a => hne (hh ▸ rfl))]
        omega
      · rw [if_pos hc, if_neg (fun hh : c = w => hne hh), if_pos rfl]
        omega
    · have hcw : ¬c = w := fun hh => hc ((hiff c).mpr (Or.inl hh))
      have hca : ¬c = a := fun hh => hc ((hiff c).mpr (Or.inr hh))
      rw [if_neg hc, if_neg hcw, if_neg hca]
      omega

theorem arabicLookup_eq_iff (a w : Char) (h1 : assoc arabic_chars a = some w)
    (h2 : assoc arabic_chars w = none)
    (h3 : ∀ q ∈ arabic_chars, q.2 = w → q.1 = a) :
    ∀ c, arabicLookup c = w ↔ (c = w ∨ c = a) := by
  intro c
  constructor
  · intro h
    cases hA : assoc arabic_chars c with
    | none =>
      rw [arabicLookup_of_none hA] at h
      exact Or.inl h
    | some v =>
      rw [arabicLookup_of_some hA] at h
      subst h
      exact Or.inr (h3 (c, v) (assoc_some_mem hA) rfl)
  · rintro (rfl | rfl)
    · exact arabicLookup_of_none h2
    · exact arabicLookup_of_some h1

theorem arabicLookup_ne_of (x : Char) (h1 : ∀ p ∈ arabic_chars, p.2 ≠ x)
    (h2 : ¬assoc arabic_chars x = none) : ∀ c, arabicLookup c ≠ x := by
  intro c h
  cases hA : assoc arabic_chars c with
  | none =>
    rw [arabicLookup_of_none hA] at h
    subst h
    exact h2 hA
  | some v =>
    rw [arabicLookup_of_some hA] at h
    exact h1 _ (assoc_some_mem hA) h

theorem digitPairsFacts : ∀ p ∈ digitPairs,
    assoc arabic_chars p.1 = some p.2 ∧ assoc arabic_chars p.2 = none ∧
    (∀ q ∈ arabic_chars, q.2 = p.2 → q.1 = p.1) ∧ p.1 ≠ p.2 ∧
    pyIsSpace p.1 = false ∧ isComb p.1 = false ∧
    (∀ e ∈ nfkdTable, p.1 ≠ e.1 ∧ p.1 ∉ e.2) ∧
    (∀ q ∈ arabic_chars, q.2 ≠ p.1) := by decide

/-! ## Behaviour of `parse_date` -/

theorem strptimeValid_valid {f : PyFmt} {l : List Char} {y m d : Nat}
    (h : strptimeValid f l = some (y, m, d)) : validDate y m d = true := by
  unfold strptimeValid at h
  cases hF : strptimeF f l with
  | none => rw [hF] at h; exact Option.noConfusion h
  | some p =>
    obtain ⟨y', m', d'⟩ := p
    rw [hF] at h
    change (if validDate y' m' d' = true then some (y', m', d') else none) =
      some (y, m, d) at h
    by_cases hv : validDate y' m' d' = true
    · rw [if_pos hv] at h
      have h2 := Option.some.inj h
      simp only [Prod.mk.injEq] at h2
      obtain ⟨rfl, rfl, rfl⟩ := h2
      exact hv
    · rw [if_neg hv] at h
      exact Option.noConfusion h

theorem tryFormats_mem : ∀ (fs : List PyFmt) (l : List Char) (y m d : Nat),
    tryFormats fs l = some (y, m, d) →
    ∃ f, f ∈ fs ∧ strptimeValid f l = some (y, m, d) := by
  intro fs
  induction fs with
  | nil => intro l y m d h; exact Option.noConfusion h
  | cons f fs' ih =>
    intro l y m d h
    unfold tryFormats at h
    cases hf : strptimeValid f l with
    | some r =>
      rw [hf] at h
      exact ⟨f, List.mem_cons_self _ _, by rw [hf, Option.some.inj h]⟩
    | none =>
      rw [hf] at h
      obtain ⟨f', hf', hs⟩ := ih l y m d h
      exact ⟨f', List.mem_cons_of_mem _ hf', hs⟩

theorem parse_date_dmy {s : String} {y m d : Nat}
    (h : strptimeValid PyFmt.dmy (stdSeps s.data) = some (y, m, d)) :
    parse_date s = some (formatDate y m d) := by
  unfold parse_date
  by_cases he : s.data = []
  · rw [he] at h
    exact Option.noConfusion h
  · rw [if_neg he]
    have ht : tryFormats [PyFmt.dmy, PyFmt.ymd, PyFmt.mdy] (stdSeps s.data) =
        some (y, m, d) := by
      simp only [tryFormats, h]
    rw [ht]

theorem parse_date_ymd {s : String} {y m d : Nat}
    (h1 : strptimeValid PyFmt.dmy (stdSeps s.data) = none)
    (h2 : strptimeValid PyFmt.ymd (stdSeps s.data) = some (y, m, d)) :
    parse_date s = some (formatDate y m d) := by
  unfold parse_date
  by_cases he : s.data = []
  · rw [he] at h2
    exact Option.noConfusion h2
  · rw [if_neg he]
    have ht : tryFormats [PyFmt.dmy, PyFmt.ymd, PyFmt.mdy] (stdSeps s.data) =
        some (y, m, d) := by
      simp only [tryFormats, h1, h2]
    rw [ht]

theorem parse_date_mdy {s : String} {y m d : Nat}
    (h1 : strptimeValid PyFmt.dmy (stdSeps s.data) = none)
    (h2 : strptimeValid PyFmt.ymd (stdSeps s.data) = none)
    (h3 : strptimeValid PyFmt.mdy (stdSeps s.data) = some (y, m, d)) :
    parse_date s = some (formatDate y m d) := by
  unfold parse_date
  by_cases he : s.data = []
  · rw [he] at h3
    exact Option.noConfusion h3
  · rw [if_neg he]
    have ht : tryFormats [PyFmt.dmy, PyFmt.ymd, PyFmt.mdy] (stdSeps s.data) =
        some (y, m, d) := by
      simp only [tryFormats, h1, h2, h3]
    rw [ht]

theorem parse_date_none_iff (s : String) :
    parse_date s = none ↔
      (strptimeValid PyFmt.dmy (stdSeps s.data) = none ∧
       strptimeValid PyFmt.ymd (stdSeps s.data) = none ∧
       strptimeValid PyFmt.mdy (stdSeps s.data) = none) := by
  by_cases he : s.data = []
  · constructor
    · intro _
      refine ⟨?_, ?_, ?_⟩ <;> (rw [he]; rfl)
    · intro _
      unfold parse_date
      rw [if_pos he]
  · have hp : parse_date s =
        (match tryFormats [PyFmt.dmy, PyFmt.ymd, PyFmt.mdy] (stdSeps s.data) with
         | some (y, m, d) => some (formatDate y m d)
         | none => none) := by
      unfold parse_date
      rw [if_neg he]
    cases h1 : strptimeValid PyFmt.dmy (stdSeps s.data) with
    | some r =>
      obtain ⟨y, m, d⟩ := r
      have ht : tryFormats [PyFmt.dmy, PyFmt.ymd, PyFmt.mdy] (stdSeps s.data) =
          some (y, m, d) := by simp only [tryFormats, h1]
      rw [hp, ht]
      constructor
      · intro h
        exact Option.noConfusion h
      · rintro ⟨ha, -, -⟩
        exact Option.noConfusion ha
    | none =>
      cases h2 : strptimeValid PyFmt.ymd (stdSeps s.data) with
      | some r =>
        obtain ⟨y, m, d⟩ := r
        have ht : tryFormats [PyFmt.dmy, PyFmt.ymd, PyFmt.mdy] (stdSeps s.data) =
            some (y, m, d) := by simp only [tryFormats, h1, h2]
        rw [hp, ht]
        constructor
        · intro h
          exact Option.noConfusion h
        · rintro ⟨-, ha, -⟩
          exact Option.noConfusion ha
      | none =>
        cases h3 : strptimeValid PyFmt.mdy (stdSeps s.data) with
        | some r =>
          obtain ⟨y, m, d⟩ := r
          have ht : tryFormats [PyFmt.dmy, PyFmt.ymd, PyFmt.mdy] (stdSeps s.data) =
              some (y, m, d) := by simp only [tryFormats, h1, h2, h3]
          rw [hp, ht]
          constructor
          · intro h
            exact Option.noConfusion h
          · rintro ⟨-, -, ha⟩
            exact Option.noConfusion ha
        | none =>
          have ht : tryFormats [PyFmt.dmy, PyFmt.ymd, PyFmt.mdy] (stdSeps s.data) =
              none := by simp only [tryFormats, h1, h2, h3]
          rw [hp, ht]
          exact ⟨fun _ => ⟨rfl, rfl, rfl⟩, fun _ => rfl⟩

theorem parse_date_some {s : String} {r : String} (h : parse_date s = some r) :
    ∃ y m d, validDate y m d = true ∧ r = formatDate y m d := by
  unfold parse_date at h
  by_cases he : s.data = []
  · rw [if_pos he] at h
    exact Option.noConfusion h
  · rw [if_neg he] at h
    cases ht : tryFormats [PyFmt.dmy, PyFmt.ymd, PyFmt.mdy] (stdSeps s.data) with
    | none => rw [ht] at h; exact Option.noConfusion h
    | some p =>
      obtain ⟨y, m, d⟩ := p
      rw [ht] at h
      obtain ⟨f, -, hf⟩ := tryFormats_mem _ _ y m d ht
      exact ⟨y, m, d, strptimeValid_valid hf, (Option.some.inj h).symm⟩

/-! ## Soundness of the CIN search (shape of any match) -/

theorem firstSome_some {α β : Type} {f : α → Option β} :
    ∀ {xs : List α} {b : β}, firstSome f xs = some b → ∃ x ∈ xs, f x = some b := by
  intro xs
  induction xs with
  | nil => intro b h; exact Option.noConfusion h
  | cons a t ih =>
    intro b h
    unfold firstSome at h
    cases hf : f a with
    | some b' =>
      rw [hf] at h
      exact ⟨a, List.mem_cons_self _ _, by rw [hf, Option.some.inj h]⟩
    | none =>
      rw [hf] at h
      obtain ⟨x, hx, hfx⟩ := ih h
      exact ⟨x, List.mem_cons_of_mem _ hx, hfx⟩

theorem cinShape_digits6_two {a b : Char} {l g : List Char}
    (ha : isAsciiAlpha a = true) (hb : isAsciiAlpha b = true)
    (h : digits6After [a, b] l = some g) : cinShape g = true := by
  unfold digits6After at h
  split at h
  · split at h
    · rename_i hcond
      obtain ⟨h1, h2, h3, h4, h5, h6, -⟩ := hcond
      obtain rfl := (Option.some.inj h).symm
      simp [cinShape, ha, hb, h1, h2, h3, h4, h5, h6]
    · exact Option.noConfusion h
  · exact Option.noConfusion h

theorem cinShape_digits6_one {a : Char} {l g : List Char}
    (ha : isAsciiAlpha a = true)
    (h : digits6After [a] l = some g) : cinShape g = true := by
  unfold digits6After at h
  split at h
  · split at h
    · rename_i hcond
      obtain ⟨h1, h2, h3, h4, h5, h6, -⟩ := hcond
      obtain rfl := (Option.some.inj h).symm
      simp [cinShape, ha, h1, h2, h3, h4, h5, h6]
    · exact Option.noConfusion h
  · exact Option.noConfusion h

theorem matchCinAt_shape {prev : Option Char} {l g : List Char}
    (h : matchCinAt prev l = some g) : cinShape g = true := by
  unfold matchCinAt at h
  split at h
  · split at h
    · rename_i a r
      split at h
      · rename_i ha
        split at h
        · rename_i b r2
          split at h
          · rename_i hb
            split at h
            · rename_i g' hd
              obtain rfl := Option.some.inj h
              exact cinShape_digits6_two ha hb hd
            · exact cinShape_digits6_one ha h
          · exact cinShape_digits6_one ha h
        · exact Option.noConfusion h
      · exact Option.noConfusion h
    · exact Option.noConfusion h
  · exact Option.noConfusion h

theorem searchAuxG_sound {mA : Option Char → List Char → Option (List Char)}
    {P : List Char → Prop} (hm : ∀ p l g, mA p l = some g → P g) :
    ∀ (p : Option Char) (l : List Char) (g : List Char),
      searchAuxG mA p l = some g → P g := by
  intro p l
  induction l generalizing p with
  | nil => intro g h; exact hm _ _ _ h
  | cons c r ih =>
    intro g h
    unfold searchAuxG at h
    cases hA : mA p (c :: r) with
    | some g' =>
      rw [hA] at h
      obtain rfl := Option.some.inj h
      exact hm _ _ _ hA
    | none =>
      rw [hA] at h
      exact ih (some c) g h

theorem searchCin_shape {l g : List Char} (h : searchCin l = some g) :
    cinShape g = true :=
  searchAuxG_sound (fun _ _ _ hm => matchCinAt_shape hm) none l g h

/-! ## The corrupted-fragment pattern after normalization -/

theorem litI_cons_some {p : Char} {ps l r : List Char} (h : litI (p :: ps) l = some r) :
    ∃ c t, l = c :: t ∧ toLowerPy c = toLowerPy p ∧ litI ps t = some r := by
  cases l with
  | nil => exact Option.noConfusion h
  | cons c t =>
    unfold litI at h
    by_cases hc : toLowerPy c = toLowerPy p
    · rw [if_pos hc] at h
      exact ⟨c, t, rfl, hc, h⟩
    · rw [if_neg hc] at h
      exact Option.noConfusion h

theorem tblLowerNoTeh : ∀ p ∈ lowerTable, p.2 ≠ 'ة' := by decide

theorem toLowerPy_teh {c : Char} (h : toLowerPy c = 'ة') : c = 'ة' := by
  unfold toLowerPy at h
  cases hA : assoc lowerTable c with
  | none => rw [hA] at h; exact h
  | some v =>
    rw [hA] at h
    exact absurd h (tblLowerNoTeh _ (assoc_some_mem hA))

theorem fragMatchAt_teh {l r : List Char} (h : fragMatchAt l = some r) : 'ة' ∈ l := by
  unfold fragMatchAt at h
  obtain ⟨r1, h1, -⟩ := Option.bind_eq_some.mp h
  rw [show "الحة".data = ['ا', 'ل', 'ح', 'ة'] from rfl] at h1
  obtain ⟨c1, t1, rfl, -, h1⟩ := litI_cons_some h1
  obtain ⟨c2, t2, rfl, -, h1⟩ := litI_cons_some h1
  obtain ⟨c3, t3, rfl, -, h1⟩ := litI_cons_some h1
  obtain ⟨c4, t4, rfl, hc4, -⟩ := litI_cons_some h1
  have hteh : c4 = 'ة' := toLowerPy_teh (by rw [hc4]; decide)
  subst hteh
  simp

theorem fragSubF_id : ∀ (n : Nat) (l : List Char), (∀ c ∈ l, c ≠ 'ة') →
    fragSubF n l = l := by
  intro n
  induction n with
  | zero => intro l _; rfl
  | succ k ih =>
    intro l h
    cases l with
    | nil => rfl
    | cons c r =>
      unfold fragSubF
      cases hm : fragMatchAt (c :: r) with
      | some rest => exact absurd (fragMatchAt_teh hm) (fun hmem => h _ hmem rfl)
      | none => rw [ih r (fun c' hc' => h c' (List.mem_cons_of_mem _ hc'))]

theorem normalizeL_no_teh (l : List Char) : ∀ c ∈ normalizeL l, c ≠ 'ة' := by
  rw [normalizeL_eq_map]
  intro c hc
  obtain ⟨c', -, rfl⟩ := List.mem_map.mp hc
  exact arabicLookup_ne_of 'ة' (by decide) (by decide) c'

theorem litI_some_subset : ∀ {ps l r : List Char}, litI ps l = some r → ∀ c ∈ r, c ∈ l := by
  intro ps
  induction ps with
  | nil =>
    intro l r h c hc
    obtain rfl := Option.some.inj h
    exact hc
  | cons p ps' ih =>
    intro l r h c hc
    obtain ⟨c0, t, rfl, -, h'⟩ := litI_cons_some h
    exact List.mem_cons_of_mem _ (ih h' c hc)

theorem mem_subAltsF {alts : List (List Char)} :
    ∀ (n : Nat) (l : List Char) (c : Char), c ∈ subAltsF alts n l → c ∈ l := by
  intro n
  induction n with
  | zero => intro l c h; exact h
  | succ k ih =>
    intro l c h
    cases l with
    | nil =>
      rw [show subAltsF alts (k + 1) [] = [] from rfl] at h
      exact absurd h (List.not_mem_nil c)
    | cons a r =>
      unfold subAltsF at h
      cases hm : firstSome (fun al => litI al (a :: r)) alts with
      | some rest =>
        rw [hm] at h
        obtain ⟨al, -, hl⟩ := firstSome_some hm
        exact litI_some_subset hl c (ih rest c h)
      | none =>
        rw [hm] at h
        rcases List.mem_cons.mp h with rfl | h'
        · exact List.mem_cons_self _ _
        · exact List.mem_cons_of_mem _ (ih r c h')

theorem mem_subAlts {alts : List (List Char)} {l : List Char} {c : Char}
    (h : c ∈ subAlts alts l) : c ∈ l :=
  mem_subAltsF _ _ _ h

/-! ## The claims -/

/-- Claim C1 (code-bug evidence): on the spec's French-record scenario
input, `extract` leaves the declared keys 'Full Name' and 'Date of
Birth' absent, stores the over-captured "AHMED ALAMI Ne le" under the
computed key 'Name' and "1990-05-12" under 'Birth Date'; only the
expiry date "2030-05-12" lands under its declared key, so the scenario's
claimed result (full name "AHMED ALAMI" under the full-name field) does
not hold on the code. -/
theorem c1_frRecord_eval :
    extract frRecordInput =
      [("CIN Number", none), ("Full Name", none), ("Date of Birth", none),
       ("Place of Birth", none), ("Expiry Date", some "2030-05-12"),
       ("Name", some "AHMED ALAMI Ne le"), ("Birth Date", some "1990-05-12"),
       ("Birth Place", some "HMED ALAMI Ne le")] := by
  decide

/-- Claim C2: `extract` is a total function whose result always contains
all five declared field keys, each bound to a string value or the
explicit absent marker; when neither expiry pattern matches, the
'Expiry Date' key is explicitly absent rather than missing. -/
theorem c2_extract_shape (s : String) :
    (dictGet (extract s) "CIN Number").isSome = true ∧
    (dictGet (extract s) "Full Name").isSome = true ∧
    (dictGet (extract s) "Date of Birth").isSome = true ∧
    (dictGet (extract s) "Place of Birth").isSome = true ∧
    (dictGet (extract s) "Expiry Date").isSome = true ∧
    (searchExFr (cleanedOf s) = none → searchExAr (cleanedOf s) = none →
      dictGet (extract s) "Expiry Date" = some none) := by
  have hext : extract s = expiryStep (cleanedOf s) (birthPlaceStep (cleanedOf s)
      (birthDateStep (cleanedOf s) (nameStep (cleanedOf s)
        (cinStep (cleanedOf s) initExtracted)))) := rfl
  refine ⟨?_, ?_, ?_, ?_, ?_, ?_⟩
  · rw [hext]
    exact expiryStep_isSome _ _ _ (birthPlaceStep_isSome _ _ _ (birthDateStep_isSome _ _ _
      (nameStep_isSome _ _ _ (cinStep_isSome _ _ _ (by decide)))))
  · rw [hext]
    exact expiryStep_isSome _ _ _ (birthPlaceStep_isSome _ _ _ (birthDateStep_isSome _ _ _
      (nameStep_isSome _ _ _ (cinStep_isSome _ _ _ (by decide)))))
  · rw [hext]
    exact expiryStep_isSome _ _ _ (birthPlaceStep_isSome _ _ _ (birthDateStep_isSome _ _ _
      (nameStep_isSome _ _ _ (cinStep_isSome _ _ _ (by decide)))))
  · rw [hext]
    exact expiryStep_isSome _ _ _ (birthPlaceStep_isSome _ _ _ (birthDateStep_isSome _ _ _
      (nameStep_isSome _ _ _ (cinStep_isSome _ _ _ (by decide)))))
  · rw [hext]
    exact expiryStep_isSome _ _ _ (birthPlaceStep_isSome _ _ _ (birthDateStep_isSome _ _ _
      (nameStep_isSome _ _ _ (cinStep_isSome _ _ _ (by decide)))))
  · intro h1 h2
    rw [hext]
    have he : ∀ m : FieldMap, expiryStep (cleanedOf s) m = m := by
      intro m
      unfold expiryStep
      rw [h1, h2]
    rw [he]
    rw [birthPlaceStep_get_ne _ _ _ (by decide), birthDateStep_get_ne _ _ _ (by decide),
      nameStep_get_ne _ _ _ (by decide), cinStep_get_ne _ _ _ (by decide)]
    decide

/-- Witness for C2 at a concrete input on which both expiry searches
fail. -/
theorem c2_extract_shape_w : dictGet (extract "z") "Expiry Date" = some none :=
  (c2_extract_shape "z").2.2.2.2.2 (by decide) (by decide)

/-- Claim C3: for every input, the four declared keys 'CIN Number',
'Full Name', 'Date of Birth' and 'Place of Birth' are always explicitly
absent, because matches are stored under the title-cased internal field
names ('Cin Number', 'Name', 'Birth Date', 'Birth Place'); the result
holds at most four keys beyond the declared five (so only 'Expiry Date'
among the declared keys can ever receive a value). -/
theorem c3_miskeyed (s : String) :
    dictGet (extract s) "CIN Number" = some none ∧
    dictGet (extract s) "Full Name" = some none ∧
    dictGet (extract s) "Date of Birth" = some none ∧
    dictGet (extract s) "Place of Birth" = some none ∧
    storeKey "cin_number" = "Cin Number" ∧ storeKey "name" = "Name" ∧
    storeKey "birth_date" = "Birth Date" ∧ storeKey "birth_place" = "Birth Place" ∧
    storeKey "expiry_date" = "Expiry Date" ∧
    (extract s).length ≤ 9 := by
  have hext : extract s = expiryStep (cleanedOf s) (birthPlaceStep (cleanedOf s)
      (birthDateStep (cleanedOf s) (nameStep (cleanedOf s)
        (cinStep (cleanedOf s) initExtracted)))) := rfl
  refine ⟨?_, ?_, ?_, ?_, storeKey_cin, storeKey_name, storeKey_bd, storeKey_bp,
    storeKey_ex, ?_⟩
  · rw [hext, expiryStep_get_ne _ _ _ (by decide), birthPlaceStep_get_ne _ _ _ (by decide),
      birthDateStep_get_ne _ _ _ (by decide), nameStep_get_ne _ _ _ (by decide),
      cinStep_get_ne _ _ _ (by decide)]
    decide
  · rw [hext, expiryStep_get_ne _ _ _ (by decide), birthPlaceStep_get_ne _ _ _ (by decide),
      birthDateStep_get_ne _ _ _ (by decide), nameStep_get_ne _ _ _ (by decide),
      cinStep_get_ne _ _ _ (by decide)]
    decide
  · rw [hext, expiryStep_get_ne _ _ _ (by decide), birthPlaceStep_get_ne _ _ _ (by decide),
      birthDateStep_get_ne _ _ _ (by decide), nameStep_get_ne _ _ _ (by decide),
      cinStep_get_ne _ _ _ (by decide)]
    decide
  · rw [hext, expiryStep_get_ne _ _ _ (by decide), birthPlaceStep_get_ne _ _ _ (by decide),
      birthDateStep_get_ne _ _ _ (by decide), nameStep_get_ne _ _ _ (by decide),
      cinStep_get_ne _ _ _ (by decide)]
    decide
  · rw [hext]
    have i1 : (dictGet initExtracted "Expiry Date").isSome = true := by decide
    have i2 := cinStep_isSome (cleanedOf s) initExtracted _ i1
    have i3 := nameStep_isSome (cleanedOf s) (cinStep (cleanedOf s) initExtracted) _ i2
    have i4 := birthDateStep_isSome (cleanedOf s)
      (nameStep (cleanedOf s) (cinStep (cleanedOf s) initExtracted)) _ i3
    have i5 := birthPlaceStep_isSome (cleanedOf s)
      (birthDateStep (cleanedOf s)
        (nameStep (cleanedOf s) (cinStep (cleanedOf s) initExtracted))) _ i4
    have e5 := expiryStep_length_of_some (cleanedOf s)
      (birthPlaceStep (cleanedOf s) (birthDateStep (cleanedOf s)
        (nameStep (cleanedOf s) (cinStep (cleanedOf s) initExtracted)))) i5
    have k1 := cinStep_length (cleanedOf s) initExtracted
    have k2 := nameStep_length (cleanedOf s) (cinStep (cleanedOf s) initExtracted)
    have k3 := birthDateStep_length (cleanedOf s)
      (nameStep (cleanedOf s) (cinStep (cleanedOf s) initExtracted))
    have k4 := birthPlaceStep_length (cleanedOf s)
      (birthDateStep (cleanedOf s)
        (nameStep (cleanedOf s) (cinStep (cleanedOf s) initExtracted)))
    have l0 : initExtracted.length = 5 := rfl
    omega

/-- Claim C4: on the boilerplate scenario input, the CIN value
"AB123456" is extracted (stored under the computed key 'Cin Number'),
and neither boilerplate header phrase appears in any stored field
value. -/
theorem c4_boiler_eval :
    extract boilerInput =
      [("CIN Number", none), ("Full Name", none), ("Date of Birth", none),
       ("Place of Birth", none), ("Expiry Date", none),
       ("Cin Number", some "AB123456"), ("Birth Place", some "B")] ∧
    dictGet (extract boilerInput) "Cin Number" = some (some "AB123456") ∧
    ((extract boilerInput).all fun e =>
      match e.2 with
      | some w => !(containsSub frPhrase1 w.data || containsSub frPhrase2 w.data)
      | none => true) = true := by
  refine ⟨by decide, by decide, by decide⟩

/-- Claim C5 counterexample: on an input that contains the corrupted
"valid until" fragment verbatim, the boilerplate-removal step running at
its place in the `extract` pipeline (after normalization) removes
nothing: the cleaned text equals the normalized text and still carries
the fragment's content (its "12.2030" tail), while the removal function
applied to the raw text does delete the fragment — so before field
matching the fragment is not removed from the cleaned text. -/
theorem c5_frag_counter :
    clean_irrelevant_lines (normalize_text fragInput) = normalize_text fragInput ∧
    normalize_text fragInput = "الحه الي غايه 12.2030" ∧
    containsSub "12.2030".data (cleanedOf fragInput) = true ∧
    clean_irrelevant_lines fragInput = "" := by
  refine ⟨by decide, by decide, by decide, by decide⟩

/-- Claim C5 amended: the removal function applied directly to raw text
deletes the header phrases and the corrupted fragment verbatim
(case-insensitively), but inside `extract` normalization runs first and
rewrites the Arabic forms (fatha stripped, teh marbuta to heh, hamza
alefs to alef), so the corrupted-fragment pattern can never match the
normalized text and the removal step deletes neither it nor the Arabic
header phrases in the pipeline; only the French header phrases are
removed before field matching. -/
theorem c5_frag_amended :
    (∀ s : String,
      fragSub (subAlts [arPhrase1, arPhrase2]
        (subAlts [frPhrase1, frPhrase2] (normalizeL s.data))) =
      subAlts [arPhrase1, arPhrase2]
        (subAlts [frPhrase1, frPhrase2] (normalizeL s.data))) ∧
    clean_irrelevant_lines fragInput = "" ∧
    clean_irrelevant_lines (normalize_text fragInput) = normalize_text fragInput ∧
    clean_irrelevant_lines (normalize_text boilerInput) = "AB123456" ∧
    clean_irrelevant_lines "المملكة المغربية" = "" ∧
    clean_irrelevant_lines (normalize_text "المملكة المغربية") = "المملكه المغربيه" := by
  refine ⟨?_, by decide, by decide, by decide, by decide, by decide⟩
  intro s
  unfold fragSub
  apply fragSubF_id
  intro c hc
  exact normalizeL_no_teh s.data c (mem_subAlts (mem_subAlts hc))

/-- Claim C6: `parse_date` tries day/month/year, then year/month/day,
then month/day/year, in that order, and the first format that matches
and yields a valid date wins; in particular "12/05/2021" parses as
2021-05-12 and "03/04/2020" as 2020-04-03 (day/month precedence). -/
theorem c6_parse_date_order :
    parse_date "12/05/2021" = some "2021-05-12" ∧
    parse_date "03/04/2020" = some "2020-04-03" ∧
    (∀ (s : String) (y m d : Nat),
      strptimeValid PyFmt.dmy (stdSeps s.data) = some (y, m, d) →
      parse_date s = some (formatDate y m d)) ∧
    (∀ (s : String) (y m d : Nat),
      strptimeValid PyFmt.dmy (stdSeps s.data) = none →
      strptimeValid PyFmt.ymd (stdSeps s.data) = some (y, m, d) →
      parse_date s = some (formatDate y m d)) ∧
    (∀ (s : String) (y m d : Nat),
      strptimeValid PyFmt.dmy (stdSeps s.data) = none →
      strptimeValid PyFmt.ymd (stdSeps s.data) = none →
      strptimeValid PyFmt.mdy (stdSeps s.data) = some (y, m, d) →
      parse_date s = some (formatDate y m d)) :=
  ⟨by decide, by decide, fun _ _ _ _ h => parse_date_dmy h,
   fun _ _ _ _ h1 h2 => parse_date_ymd h1 h2,
   fun _ _ _ _ h1 h2 h3 => parse_date_mdy h1 h2 h3⟩

/-- Witness for C6: a month/day/year date reachable only through the
third format. -/
theorem c6_parse_date_order_w : parse_date "12/31/2020" = some (formatDate 2020 12 31) :=
  c6_parse_date_order.2.2.2.2 "12/31/2020" 2020 12 31 (by decide) (by decide) (by decide)

/-- Claim C7: `parse_date` never raises: it returns the absent marker
exactly when no supported layout yields a valid calendar date (including
calendar-invalid dates such as 31/04 and shapeless tokens), and
otherwise returns the date formatted year-month-day. -/
theorem c7_parse_date_total (s : String) :
    (parse_date s = none ↔
      (strptimeValid PyFmt.dmy (stdSeps s.data) = none ∧
       strptimeValid PyFmt.ymd (stdSeps s.data) = none ∧
       strptimeValid PyFmt.mdy (stdSeps s.data) = none)) ∧
    (∀ r, parse_date s = some r →
      ∃ y m d, validDate y m d = true ∧ r = formatDate y m d) ∧
    parse_date "31/04/2020" = none ∧
    parse_date "not a date" = none :=
  ⟨parse_date_none_iff s, fun _ h => parse_date_some h, by decide, by decide⟩

/-- Witness for C7 at a concrete parsed date. -/
theorem c7_parse_date_total_w :
    ∃ y m d, validDate y m d = true ∧ "2021-05-12" = formatDate y m d :=
  (c7_parse_date_total "12/05/2021").2.1 "2021-05-12" (by decide)

theorem string_data_mk (l : List Char) : (String.mk l).data = l := rfl

theorem normalize_text_data (s : String) : (normalize_text s).data = normalizeL s.data := by
  unfold normalize_text
  exact string_data_mk (normalizeL s.data)

/-- Claim C8: `normalize_text` is idempotent. -/
theorem c8_normalize_idempotent (s : String) :
    normalize_text (normalize_text s) = normalize_text s := by
  have h : (normalize_text (normalize_text s)).data = (normalize_text s).data := by
    rw [normalize_text_data (normalize_text s), normalize_text_data s]
    exact normalizeL_idem s.data
  exact String.ext h

/-- Claim C9: normalized text contains no combining marks, no run of
more than one whitespace character, and no leading or trailing
whitespace; every Arabic-indic digit of the input is accounted for as
its Western counterpart in the output and none survives; and the legacy
letterforms (hamza alefs, teh marbuta, alef maksura) are gone, teh
marbuta and alef maksura being replaced by heh and yeh. -/
theorem c9_normalize_invariants (s : String) :
    (∀ c ∈ (normalize_text s).data, isComb c = false) ∧
    okRun (normalize_text s).data = true ∧
    (∀ c, (normalize_text s).data.head? = some c → pyIsSpace c = false) ∧
    (∀ c, (normalize_text s).data.getLast? = some c → pyIsSpace c = false) ∧
    (∀ p ∈ digitPairs,
      countC p.2 (normalize_text s).data =
        countC p.2 (midNormL s.data) + countC p.1 s.data ∧
      countC p.1 (normalize_text s).data = 0) ∧
    (countC 'أ' (normalize_text s).data = 0 ∧ countC 'إ' (normalize_text s).data = 0 ∧
     countC 'آ' (normalize_text s).data = 0 ∧ countC 'ة' (normalize_text s).data = 0 ∧
     countC 'ى' (normalize_text s).data = 0 ∧
     countC 'ه' (normalize_text s).data =
       countC 'ه' (midNormL s.data) + countC 'ة' s.data ∧
     countC 'ي' (normalize_text s).data =
       countC 'ي' (midNormL s.data) + countC 'ى' s.data) := by
  have hdata : (normalize_text s).data = normalizeL s.data := normalize_text_data s
  refine ⟨?_, ?_, ?_, ?_, ?_, ?_, ?_, ?_, ?_, ?_, ?_, ?_⟩
  · rw [hdata]; exact normalizeL_noComb s.data
  · rw [hdata]; exact normalizeL_chain s.data
  · rw [hdata]; exact normalizeL_head s.data
  · rw [hdata]; exact normalizeL_last s.data
  · intro p hp
    obtain ⟨h1, h2, h3, h4, h5, h6, h7, h8⟩ := digitPairsFacts p hp
    have hiff := arabicLookup_eq_iff p.1 p.2 h1 h2 h3
    constructor
    · rw [hdata, normalizeL_eq_map,
        countC_map_pre arabicLookup p.2 p.1 h4 hiff,
        countC_midNorm p.1 h7 h6 h5]
    · rw [hdata, normalizeL_eq_map]
      exact countC_map_zero arabicLookup p.1
        (arabicLookup_ne_of p.1 h8 (fun hc => Option.noConfusion (h1.symm.trans hc)))
        (midNormL s.data)
  · rw [hdata, normalizeL_eq_map]
    exact countC_map_zero arabicLookup 'أ'
      (arabicLookup_ne_of 'أ' (by decide) (by decide)) (midNormL s.data)
  · rw [hdata, normalizeL_eq_map]
    exact countC_map_zero arabicLookup 'إ'
      (arabicLookup_ne_of 'إ' (by decide) (by decide)) (midNormL s.data)
  · rw [hdata, normalizeL_eq_map]
    exact countC_map_zero arabicLookup 'آ'
      (arabicLookup_ne_of 'آ' (by decide) (by decide)) (midNormL s.data)
  · rw [hdata, normalizeL_eq_map]
    exact countC_map_zero arabicLookup 'ة'
      (arabicLookup_ne_of 'ة' (by decide) (by decide)) (midNormL s.data)
  · rw [hdata, normalizeL_eq_map]
    exact countC_map_zero arabicLookup 'ى'
      (arabicLookup_ne_of 'ى' (by decide) (by decide)) (midNormL s.data)
  · rw [hdata, normalizeL_eq_map,
      countC_map_pre arabicLookup 'ه' 'ة' (by decide)
        (arabicLookup_eq_iff 'ة' 'ه' (by decide) (by decide) (by decide)),
      countC_midNorm 'ة' (by decide) (by decide) (by decide)]
  · rw [hdata, normalizeL_eq_map,
      countC_map_pre arabicLookup 'ي' 'ى' (by decide)
        (arabicLookup_eq_iff 'ى' 'ي' (by decide) (by decide) (by decide)),
      countC_midNorm 'ى' (by decide) (by decide) (by decide)]

/-- Witness for C9 at a concrete input containing an Arabic-indic
digit. -/
theorem c9_normalize_invariants_w :
    isComb '0' = false ∧
    countC '0' (normalize_text "٠").data =
      countC '0' (midNormL "٠".data) + countC '٠' "٠".data := by
  constructor
  · exact (c9_normalize_invariants "٠").1 '0' (by decide)
  · exact ((c9_normalize_invariants "٠").2.2.2.2.1 ('٠', '0') (by decide)).1

/-- Claim C10 counterexample: because `extract` searches the CIN pattern
with `re.IGNORECASE`, the all-lowercase token "ab123456" — which
contains no uppercase letter — matches the ID-number rule, so the rule
does not match exactly the tokens made of uppercase letters. -/
theorem c10_cin_lowercase_counter :
    searchCin "ab123456".data = some "ab123456".data ∧
    ("ab123456".data.all fun c => !c.isUpper) = true := by
  refine ⟨by decide, by decide⟩

/-- Claim C10 amended: the ID-number rule as applied by `extract` is
case-insensitive: every match consists of one or two Latin letters of
either case immediately followed by exactly six digits, word-bounded;
"AB123456" and "ab123456" match, "AB12345" (five digits) and
"ABC123456" (three letters) do not. -/
theorem c10_cin_amended :
    searchCin "AB123456".data = some "AB123456".data ∧
    searchCin "ab123456".data = some "ab123456".data ∧
    searchCin "AB12345".data = none ∧
    searchCin "ABC123456".data = none ∧
    (∀ l g : List Char, searchCin l = some g → cinShape g = true) :=
  ⟨by decide, by decide, by decide, by decide, fun _ _ h => searchCin_shape h⟩

/-- Witness for C10 exercising the soundness clause at a concrete
match. -/
theorem c10_cin_amended_w : cinShape "AB123456".data = true :=
  c10_cin_amended.2.2.2.2 "AB123456".data "AB123456".data (by decide)

end LuzivOCR
